import Mathlib

/-!
# WolfTrace graph state engine: formalisation

A shallow embedding of the WolfTrace graph state engine (graph store,
history manager, path finder, query engine) and of the frontend graph
utilities (text search, bloodweb layout levels, node grouping), with
theorems settling the specification's claims.
-/

namespace WolfTrace

/-- A scalar property value.  The source stores JSON scalars; arrays and
nested objects are not needed by any claim and are omitted. -/
inductive Value where
  | str (s : String)
  | num (n : Int)
  | boolean (b : Bool)
  | null
  deriving DecidableEq, Repr

/-- Modelled from the spec: a graph node (`id` unique, `type` free-form,
`properties` a string-keyed map). -/
structure Node where
  id : String
  type : String
  properties : List (String × Value)
  deriving DecidableEq, Repr

/-- Modelled from the spec: a directed edge between node ids. -/
structure Edge where
  source : String
  target : String
  type : String
  properties : List (String × Value)
  deriving DecidableEq, Repr

/-- Modelled from the spec: the graph store's state, node and edge
collections.  The backend module `graph_engine.py` is not part of the
provided sources, so the store is modelled from the spec. -/
structure Graph where
  nodes : List Node
  edges : List Edge
  deriving DecidableEq, Repr

/-- The empty graph. -/
def Graph.empty : Graph := ⟨[], []⟩

/-- Whether a node with the given id exists in the store. -/
def Graph.hasNode (g : Graph) (i : String) : Bool :=
  g.nodes.any (fun n => n.id = i)

/-- Modelled from the spec: error kinds of the core (§7). -/
inductive GraphError where
  | DanglingReference
  | NodeNotFound
  | InvalidFilter
  | NothingToUndo
  | NothingToRedo
  deriving DecidableEq, Repr

/-- Modelled from the spec: `addNode(id, type, properties)` with upsert
semantics — an existing node with the same id has its `type`/`properties`
replaced in place and all edges are untouched; otherwise the node is
appended. -/
def Graph.addNode (g : Graph) (i ty : String) (props : List (String × Value)) : Graph :=
  if g.hasNode i then
    { g with nodes := g.nodes.map (fun n => if n.id = i then ⟨i, ty, props⟩ else n) }
  else
    { g with nodes := g.nodes ++ [⟨i, ty, props⟩] }

/-- Modelled from the spec: `addEdge(source, target, type, properties)`
fails with `DanglingReference` if either endpoint is missing; otherwise
the edge is appended (directed multigraph, duplicates permitted). -/
def Graph.addEdge (g : Graph) (s t ty : String) (props : List (String × Value)) :
    Except GraphError Graph :=
  if g.hasNode s ∧ g.hasNode t then
    .ok { g with edges := g.edges ++ [⟨s, t, ty, props⟩] }
  else
    .error .DanglingReference

/-- Modelled from the spec: `deleteNode(id)` cascades, removing the node
and every edge incident to it; no-op if the node is absent. -/
def Graph.deleteNode (g : Graph) (i : String) : Graph :=
  { nodes := g.nodes.filter (fun n => n.id ≠ i),
    edges := g.edges.filter (fun e => e.source ≠ i ∧ e.target ≠ i) }

/-- Modelled from the spec: `deleteEdge(source, target, type)` removes the
first stored edge matching the `(source, target, type)` tuple (insertion
order disambiguates duplicates, §3). -/
def Graph.deleteEdge (g : Graph) (s t ty : String) : Graph :=
  { g with
    edges := g.edges.eraseP (fun e => e.source = s ∧ e.target = t ∧ e.type = ty) }

/-- Modelled from the spec: `degree(id)` = count of incident edges, both
directions. -/
def Graph.degree (g : Graph) (i : String) : Nat :=
  g.edges.countP (fun e => e.source = i ∨ e.target = i)

/-- Modelled from the spec: the mutations routed through the History
Manager (§2, §4.1). -/
inductive Mutation where
  | addNode (i ty : String) (props : List (String × Value))
  | addEdge (s t ty : String) (props : List (String × Value))
  | deleteNode (i : String)
  | deleteEdge (s t ty : String)
  | clear
  deriving DecidableEq, Repr

/-- Modelled from the spec: applying one mutation to the store.  Only
`addEdge` can fail; a failure leaves the store unchanged (§7,
all-or-nothing). -/
def applyMutation (m : Mutation) (g : Graph) : Except GraphError Graph :=
  match m with
  | .addNode i ty props => .ok (g.addNode i ty props)
  | .addEdge s t ty props => g.addEdge s t ty props
  | .deleteNode i => .ok (g.deleteNode i)
  | .deleteEdge s t ty => .ok (g.deleteEdge s t ty)
  | .clear => .ok Graph.empty

/-- Referential integrity (§3 invariant 1): every edge's endpoints resolve
to existing nodes. -/
def Graph.WF (g : Graph) : Prop :=
  ∀ e ∈ g.edges, g.hasNode e.source = true ∧ g.hasNode e.target = true

/-- Uniqueness of node ids (§3 invariant: exactly one node per id). -/
def Graph.NodesUnique (g : Graph) : Prop :=
  (g.nodes.map (fun n => n.id)).Nodup

/-! ## History Manager (§4.2)

Modelled from the spec: the backend module `history_manager.py` is not in
the provided sources.  Per §9, entries store full-graph
before/after snapshots (`preState`/`postState`), which the spec sanctions
as an equivalent implementation of the affected-element snapshots. -/

/-- Modelled from the spec: one reversible record of a committed
mutation. -/
structure HistEntry where
  preState : Graph
  postState : Graph
  deriving DecidableEq, Repr

/-- Modelled from the spec: the History Manager's state — the wrapped
graph, the bounded undo stack (newest first), the redo stack, and the
configured depth bound. -/
structure HistState where
  graph : Graph
  undoStack : List HistEntry
  redoStack : List HistEntry
  bound : Nat
  deriving DecidableEq, Repr

/-- A fresh history wrapping an initial graph; both stacks empty. -/
def HistState.init (g : Graph) (bound : Nat) : HistState :=
  ⟨g, [], [], bound⟩

/-- Modelled from the spec: `execute(mutation)` applies the mutation via
the Graph Store; on success it pushes a `{preState, postState}` entry
(evicting the oldest entries beyond the depth bound) and clears the redo
stack; on failure it leaves the whole state unchanged. -/
def execute (m : Mutation) (s : HistState) : HistState :=
  match applyMutation m s.graph with
  | .error _ => s
  | .ok g' =>
    { graph := g',
      undoStack := (⟨s.graph, g'⟩ :: s.undoStack).take s.bound,
      redoStack := [],
      bound := s.bound }

/-- Modelled from the spec: `undo()` pops the most recent undo entry,
reapplies its `preState`, and pushes the entry onto the redo stack; fails
with `NothingToUndo` when the undo stack is empty. -/
def undoStep (s : HistState) : Except GraphError HistState :=
  match s.undoStack with
  | [] => .error .NothingToUndo
  | e :: rest =>
    .ok { graph := e.preState, undoStack := rest,
          redoStack := e :: s.redoStack, bound := s.bound }

/-- `undo` as a total state transition: a failing `undo` is a recoverable
no-op (§7). -/
def undo (s : HistState) : HistState :=
  match undoStep s with
  | .ok t => t
  | .error _ => s

/-- Modelled from the spec: `redo()` — inverse of `undo`; pops the redo
stack, reapplies the entry's `postState`, pushes the entry back onto the
undo stack; fails with `NothingToRedo` when empty. -/
def redoStep (s : HistState) : Except GraphError HistState :=
  match s.redoStack with
  | [] => .error .NothingToRedo
  | e :: rest =>
    .ok { graph := e.postState, undoStack := e :: s.undoStack,
          redoStack := rest, bound := s.bound }

/-- `redo` as a total state transition: a failing `redo` is a recoverable
no-op (§7). -/
def redo (s : HistState) : HistState :=
  match redoStep s with
  | .ok t => t
  | .error _ => s

/-- Committing a whole sequence of mutations through the History
Manager. -/
def execAll (ms : List Mutation) (s : HistState) : HistState :=
  ms.foldl (fun s m => execute m s) s

/-! ## Store integrity lemmas -/

theorem hasNode_addNode_of {g : Graph} {j : String} (i ty : String)
    (props : List (String × Value)) (h : g.hasNode j = true) :
    (g.addNode i ty props).hasNode j = true := by
  unfold Graph.addNode Graph.hasNode at *
  rcases List.any_eq_true.mp h with ⟨n, hn, hid⟩
  split
  · exact List.any_eq_true.mpr ⟨if n.id = i then ⟨i, ty, props⟩ else n,
      List.mem_map.mpr ⟨n, hn, rfl⟩, by
        split
        · next heq => exact heq ▸ hid
        · exact hid⟩
  · exact List.any_eq_true.mpr ⟨n, List.mem_append_left _ hn, hid⟩

theorem hasNode_deleteNode_of {g : Graph} {j i : String}
    (h : g.hasNode j = true) (hne : j ≠ i) :
    (g.deleteNode i).hasNode j = true := by
  unfold Graph.deleteNode Graph.hasNode at *
  rcases List.any_eq_true.mp h with ⟨n, hn, hid⟩
  refine List.any_eq_true.mpr ⟨n, List.mem_filter.mpr ⟨hn, ?_⟩, hid⟩
  simp only [decide_eq_true_eq] at hid ⊢
  exact fun hni => hne (hid ▸ hni ▸ rfl)

/-- C2: after every committed mutation the referential-integrity invariant
is preserved (every edge's endpoints resolve to existing nodes), and
`deleteNode x` leaves zero edges whose source or target is `x`. -/
theorem mutation_preserves_integrity (m : Mutation) (g g' : Graph) (x : String)
    (hok : applyMutation m g = .ok g') (hwf : g.WF) :
    g'.WF ∧ ∀ e ∈ (g.deleteNode x).edges, e.source ≠ x ∧ e.target ≠ x := by
  constructor
  · cases m with
    | addNode i ty props =>
      simp only [applyMutation, Except.ok.injEq] at hok
      subst hok
      intro e he
      have he' : e ∈ g.edges := by
        unfold Graph.addNode at he
        split at he <;> exact he
      exact ⟨hasNode_addNode_of i ty props (hwf e he').1,
             hasNode_addNode_of i ty props (hwf e he').2⟩
    | addEdge s t ty props =>
      simp only [applyMutation, Graph.addEdge] at hok
      split at hok
      · next hst =>
        cases hok
        intro e he
        rcases List.mem_append.mp he with he' | he'
        · have hs := hwf e he'
          exact ⟨hs.1, hs.2⟩
        · simp only [List.mem_singleton] at he'
          subst he'
          exact hst
      · cases hok
    | deleteNode i =>
      simp only [applyMutation, Except.ok.injEq] at hok
      subst hok
      intro e he
      have he2 := List.mem_filter.mp he
      have hcond := of_decide_eq_true he2.2
      have hbase := hwf e he2.1
      exact ⟨hasNode_deleteNode_of hbase.1 hcond.1,
             hasNode_deleteNode_of hbase.2 hcond.2⟩
    | deleteEdge s t ty =>
      simp only [applyMutation, Except.ok.injEq] at hok
      subst hok
      intro e he
      have he' : e ∈ g.edges := (List.eraseP_sublist _).subset he
      exact hwf e he'
    | clear =>
      simp only [applyMutation, Except.ok.injEq] at hok
      subst hok
      intro e he
      simp [Graph.empty] at he
  · intro e he
    have he2 := List.mem_filter.mp he
    exact of_decide_eq_true he2.2

/-- Witness for C2 at a concrete input. -/
theorem mutation_preserves_integrity_witness :
    (Graph.empty.addNode "a" "T" []).WF
      ∧ ∀ e ∈ (Graph.empty.deleteNode "x").edges, e.source ≠ "x" ∧ e.target ≠ "x" :=
  mutation_preserves_integrity (.addNode "a" "T" []) Graph.empty
    (Graph.empty.addNode "a" "T" []) "x" rfl (by intro e he; simp [Graph.empty] at he)

theorem upsert_ids_unchanged (l : List Node) (A ty : String)
    (props : List (String × Value)) :
    (l.map (fun n => if n.id = A then (⟨A, ty, props⟩ : Node) else n)).map
        (fun n => n.id)
      = l.map (fun n => n.id) := by
  induction l with
  | nil => rfl
  | cons n l ih =>
    simp only [List.map_cons, ih]
    split
    · next h => simp [h]
    · rfl

theorem upsert_filter_eq (l : List Node) (A ty : String)
    (props : List (String × Value))
    (hu : (l.map (fun n => n.id)).Nodup) (hA : ∃ n ∈ l, n.id = A) :
    (l.map (fun n => if n.id = A then (⟨A, ty, props⟩ : Node) else n)).filter
        (fun n => n.id = A)
      = [⟨A, ty, props⟩] := by
  induction l with
  | nil => simp at hA
  | cons n l ih =>
    simp only [List.map_cons, List.nodup_cons] at hu
    by_cases h : n.id = A
    · have hrest : ∀ x ∈ l, ¬(x.id = A) := by
        intro x hx hxA
        exact hu.1 (h ▸ hxA ▸ List.mem_map.mpr ⟨x, hx, rfl⟩)
      simp only [List.map_cons, if_pos h, List.filter_cons]
      rw [if_pos (by simp)]
      congr 1
      rw [List.filter_eq_nil_iff]
      intro x hx
      rcases List.mem_map.mp hx with ⟨y, hy, hyx⟩
      subst hyx
      split
      · next hy' => exact absurd hy' (hrest y hy)
      · next hy' => simpa using hy'
    · rcases hA with ⟨m, hm, hmA⟩
      rcases List.mem_cons.mp hm with rfl | hm'
      · exact absurd hmA h
      · simp only [List.map_cons, if_neg h, List.filter_cons]
        rw [if_neg (by simpa using h)]
        exact ih hu.2 ⟨m, hm', hmA⟩

/-- C3: re-adding an existing node id is an upsert — the single node with
that id carries the new `type`/`properties`, the edge collection is
untouched, and id uniqueness is preserved. -/
theorem addNode_upsert (g : Graph) (A ty : String) (props : List (String × Value))
    (hu : g.NodesUnique) (hA : g.hasNode A = true) :
    (g.addNode A ty props).nodes.filter (fun n => n.id = A) = [⟨A, ty, props⟩]
      ∧ (g.addNode A ty props).edges = g.edges
      ∧ (g.addNode A ty props).NodesUnique := by
  have hA' : ∃ n ∈ g.nodes, n.id = A := by
    rcases List.any_eq_true.mp hA with ⟨n, hn, hid⟩
    exact ⟨n, hn, of_decide_eq_true hid⟩
  refine ⟨?_, ?_, ?_⟩
  · unfold Graph.addNode
    rw [if_pos hA]
    exact upsert_filter_eq g.nodes A ty props hu hA'
  · unfold Graph.addNode
    rw [if_pos hA]
  · have h2 := upsert_ids_unchanged g.nodes A ty props
    unfold Graph.addNode Graph.NodesUnique
    rw [if_pos hA]
    show ((g.nodes.map fun n => if n.id = A then (⟨A, ty, props⟩ : Node) else n).map
        fun n => n.id).Nodup
    rw [h2]
    exact hu

/-- Witness for C3 at a concrete input. -/
theorem addNode_upsert_witness :
    ((⟨[⟨"A", "Host", []⟩], []⟩ : Graph).addNode "A" "Service"
        [("x", .num 1)]).nodes.filter (fun n => n.id = "A")
        = [⟨"A", "Service", [("x", .num 1)]⟩]
      ∧ ((⟨[⟨"A", "Host", []⟩], []⟩ : Graph).addNode "A" "Service"
          [("x", .num 1)]).edges = (⟨[⟨"A", "Host", []⟩], []⟩ : Graph).edges
      ∧ ((⟨[⟨"A", "Host", []⟩], []⟩ : Graph).addNode "A" "Service"
          [("x", .num 1)]).NodesUnique :=
  addNode_upsert ⟨[⟨"A", "Host", []⟩], []⟩ "A" "Service" [("x", .num 1)]
    (by simp [Graph.NodesUnique]) (by decide)

/-- C4: `addEdge` fails with `DanglingReference` exactly when an endpoint
is missing, and a failing `addEdge` committed through the History Manager
leaves the whole state (store and stacks) unchanged. -/
theorem addEdge_dangling_iff (g : Graph) (s t ty : String)
    (props : List (String × Value)) :
    (applyMutation (.addEdge s t ty props) g = .error .DanglingReference
        ↔ ¬(g.hasNode s = true ∧ g.hasNode t = true))
      ∧ ∀ st : HistState, st.graph = g →
          ¬(g.hasNode s = true ∧ g.hasNode t = true) →
          execute (.addEdge s t ty props) st = st := by
  constructor
  · show Graph.addEdge g s t ty props = .error .DanglingReference ↔ _
    unfold Graph.addEdge
    split
    · next h =>
      constructor
      · intro hc
        cases hc
      · intro hn
        exact absurd h hn
    · next h =>
      exact iff_of_true rfl h
  · intro st hst h
    have herr : applyMutation (.addEdge s t ty props) st.graph
        = .error .DanglingReference := by
      show Graph.addEdge st.graph s t ty props = _
      unfold Graph.addEdge
      rw [hst]
      rw [if_neg h]
    unfold execute
    rw [herr]

/-- Witness for C4 at a concrete input. -/
theorem addEdge_dangling_iff_witness :
    applyMutation (.addEdge "a" "b" "T" []) Graph.empty
        = .error .DanglingReference
      ∧ execute (.addEdge "a" "b" "T" []) (HistState.init Graph.empty 10)
        = HistState.init Graph.empty 10 :=
  ⟨(addEdge_dangling_iff Graph.empty "a" "b" "T" []).1.mpr (by decide),
   (addEdge_dangling_iff Graph.empty "a" "b" "T" []).2
     (HistState.init Graph.empty 10) rfl (by decide)⟩

/-- C7: `undo()` on an empty undo stack fails with `NothingToUndo` and is
a recoverable no-op — the state, in particular the graph, is completely
unchanged. -/
theorem undo_on_empty_history (s : HistState) (h : s.undoStack = []) :
    undoStep s = .error .NothingToUndo ∧ undo s = s := by
  have hstep : undoStep s = .error .NothingToUndo := by
    unfold undoStep
    rw [h]
  exact ⟨hstep, by unfold undo; rw [hstep]⟩

/-- Witness for C7 at a concrete input. -/
theorem undo_on_empty_history_witness :
    undoStep (HistState.init Graph.empty 10) = .error .NothingToUndo
      ∧ undo (HistState.init Graph.empty 10) = HistState.init Graph.empty 10 :=
  undo_on_empty_history (HistState.init Graph.empty 10) rfl

/-! ## Undo/redo round trip (C1) -/

/-- The undo stack is chained: the graph equals the newest entry's
`postState`, and each entry's `preState` equals the next entry's
`postState`.  Every state reachable through `execute` satisfies this. -/
def UChain : Graph → List HistEntry → Prop
  | _, [] => True
  | g, e :: u => g = e.postState ∧ UChain e.preState u

theorem uchain_take (k : Nat) :
    ∀ (g : Graph) (u : List HistEntry), UChain g u → UChain g (u.take k) := by
  induction k with
  | zero => intro g u _; trivial
  | succ k ih =>
    intro g u h
    cases u with
    | nil => trivial
    | cons e u => exact ⟨h.1, ih e.preState u h.2⟩

/-- The invariant maintained by `execute`: chained undo stack and an empty
redo stack (committing a fresh mutation clears the redo stack). -/
def HistInv (s : HistState) : Prop :=
  UChain s.graph s.undoStack ∧ s.redoStack = []

theorem execute_preserves_inv (m : Mutation) (s : HistState) (h : HistInv s) :
    HistInv (execute m s) := by
  unfold execute
  cases happ : applyMutation m s.graph with
  | error e => exact h
  | ok g' =>
    refine ⟨?_, rfl⟩
    exact uchain_take s.bound g' (⟨s.graph, g'⟩ :: s.undoStack) ⟨rfl, h.1⟩

theorem execAll_preserves_inv (ms : List Mutation) (s : HistState) (h : HistInv s) :
    HistInv (execAll ms s) := by
  induction ms generalizing s with
  | nil => exact h
  | cons m ms ih => exact ih (execute m s) (execute_preserves_inv m s h)

theorem undo_of_empty {s : HistState} (h : s.undoStack = []) : undo s = s := by
  unfold undo undoStep
  rw [h]

theorem redo_of_empty {s : HistState} (h : s.redoStack = []) : redo s = s := by
  unfold redo redoStep
  rw [h]

theorem undo_of_cons {s : HistState} {e : HistEntry} {rest : List HistEntry}
    (h : s.undoStack = e :: rest) :
    undo s = ⟨e.preState, rest, e :: s.redoStack, s.bound⟩ := by
  unfold undo undoStep
  rw [h]

theorem redo_of_cons {s : HistState} {e : HistEntry} {rest : List HistEntry}
    (h : s.redoStack = e :: rest) :
    redo s = ⟨e.postState, e :: s.undoStack, rest, s.bound⟩ := by
  unfold redo redoStep
  rw [h]

/-- Undoing at most as many times as the undo stack is deep and then
redoing the same number of times restores the state exactly. -/
theorem roundtrip_le (k : Nat) :
    ∀ s : HistState, UChain s.graph s.undoStack → k ≤ s.undoStack.length →
      redo^[k] (undo^[k] s) = s := by
  induction k with
  | zero => intro s _ _; rfl
  | succ k ih =>
    intro s hch hlen
    cases hu : s.undoStack with
    | nil => rw [hu] at hlen; simp at hlen
    | cons e rest =>
      rw [hu] at hch hlen
      have hstep := undo_of_cons hu
      have hch1 : UChain e.preState rest := hch.2
      have hlen1 : k ≤ rest.length := Nat.le_of_succ_le_succ (by simpa using hlen)
      have h1 : undo^[k + 1] s = undo^[k] (undo s) :=
        Function.iterate_succ_apply undo k s
      have h2 : ∀ y, redo^[k + 1] y = redo (redo^[k] y) := fun y =>
        Function.iterate_succ_apply' redo k y
      rw [h1, hstep, h2]
      have ih1 := ih ⟨e.preState, rest, e :: s.redoStack, s.bound⟩ hch1 hlen1
      rw [ih1]
      rw [redo_of_cons (s := ⟨e.preState, rest, e :: s.redoStack, s.bound⟩) rfl]
      cases s with
      | mk g u r b =>
        simp only at hu hch ⊢
        rw [hu, hch.1]

theorem undo_iterate_stack (k : Nat) :
    ∀ s : HistState, k ≤ s.undoStack.length →
      (undo^[k] s).undoStack = s.undoStack.drop k := by
  induction k with
  | zero => intro s _; rfl
  | succ k ih =>
    intro s hlen
    cases hu : s.undoStack with
    | nil => rw [hu] at hlen; simp at hlen
    | cons e rest =>
      rw [hu] at hlen
      have h2 := ih ⟨e.preState, rest, e :: s.redoStack, s.bound⟩
        (Nat.le_of_succ_le_succ (by simpa using hlen))
      rw [Function.iterate_succ_apply, undo_of_cons hu, h2]
      rfl

/-- For any number of iterations (also past exhaustion of the stacks, where
undo/redo are no-ops), `redo^[k] ∘ undo^[k]` is the identity on states
satisfying the execute invariant. -/
theorem roundtrip_total (s : HistState) (h : HistInv s) (k : Nat) :
    redo^[k] (undo^[k] s) = s := by
  rcases le_or_lt k s.undoStack.length with hle | hgt
  · exact roundtrip_le k s h.1 hle
  · have hlen : s.undoStack.length ≤ k := Nat.le_of_lt hgt
    have hsplit : k = (k - s.undoStack.length) + s.undoStack.length :=
      (Nat.sub_add_cancel hlen).symm
    have hempty : (undo^[s.undoStack.length] s).undoStack = [] := by
      rw [undo_iterate_stack s.undoStack.length s (Nat.le_refl _)]
      simp
    have hufix : undo^[k] s = undo^[s.undoStack.length] s := by
      rw [hsplit, Function.iterate_add_apply]
      exact Function.iterate_fixed (undo_of_empty hempty) _
    rw [hufix]
    rw [hsplit, Function.iterate_add_apply]
    rw [roundtrip_le s.undoStack.length s h.1 (Nat.le_refl _)]
    exact Function.iterate_fixed (redo_of_empty h.2) _

/-- C1: for every initial graph and every sequence of N mutations committed
through the History Manager, undoing N times and then redoing N times
reproduces exactly the graph (node set, edge set and properties) reached
after the original N mutations. -/
theorem undo_redo_roundtrip (g0 : Graph) (bound : Nat) (ms : List Mutation) :
    (redo^[ms.length] (undo^[ms.length]
        (execAll ms (HistState.init g0 bound)))).graph
      = (execAll ms (HistState.init g0 bound)).graph := by
  have hinv : HistInv (execAll ms (HistState.init g0 bound)) :=
    execAll_preserves_inv ms (HistState.init g0 bound) ⟨trivial, rfl⟩
  rw [roundtrip_total _ hinv ms.length]

/-! ## Path Finder (§4.3) -/

/-- Outgoing neighbor ids of a node, following edges in their stored
direction only. -/
def Graph.outNeighbors (g : Graph) (x : String) : List String :=
  (g.edges.filter (fun e => e.source = x)).map (fun e => e.target)

/-- Modelled from the spec: the bounded depth-first search behind
`findPaths` (backend `graph_engine.py` is not under src/).  `path` holds
the nodes already walked, `cur` the node under visit; a path is recorded
when `cur` is the target, and one unit of `fuel` is one more edge the
branch may still follow (a branch stops once its edge count would exceed
`maxDepth`).  A node already on the branch is never revisited (simple
paths). -/
def dfsPaths (g : Graph) (tgt : String) : Nat → String → List String → List (List String)
  | fuel, cur, path =>
    if cur = tgt then [path ++ [cur]]
    else
      match fuel with
      | 0 => []
      | fuel' + 1 =>
        ((g.outNeighbors cur).filter
            (fun n => decide (n ∉ path ++ [cur]))).flatMap
          (fun n => dfsPaths g tgt fuel' n (path ++ [cur]))

/-- Modelled from the spec: `findPaths(source, target, maxDepth)` —
`NodeNotFound` when an endpoint is missing; otherwise the simple paths
found by bounded DFS, ordered by increasing length (stable, so ties keep
discovery order) and capped at 100 results. -/
def findPaths (g : Graph) (src tgt : String) (maxDepth : Nat) :
    Except GraphError (List (List String)) :=
  if g.hasNode src ∧ g.hasNode tgt then
    .ok ((List.insertionSort (fun p q => p.length ≤ q.length)
        (dfsPaths g tgt maxDepth src [])).take 100)
  else
    .error .NodeNotFound

theorem dfsPaths_sound (g : Graph) (tgt : String) :
    ∀ (fuel : Nat) (cur : String) (path : List String),
      (path ++ [cur]).Nodup →
      ∀ p ∈ dfsPaths g tgt fuel cur path,
        p.Nodup ∧ p.length ≤ path.length + 1 + fuel := by
  intro fuel
  induction fuel with
  | zero =>
    intro cur path hnd p hp
    unfold dfsPaths at hp
    split at hp
    · simp only [List.mem_singleton] at hp
      subst hp
      exact ⟨hnd, by simp⟩
    · simp at hp
  | succ fuel ih =>
    intro cur path hnd p hp
    unfold dfsPaths at hp
    split at hp
    · simp only [List.mem_singleton] at hp
      subst hp
      refine ⟨hnd, ?_⟩
      simp only [List.length_append, List.length_singleton]
      omega
    · simp only [List.mem_flatMap] at hp
      rcases hp with ⟨n, hn, hp⟩
      have hn2 := List.mem_filter.mp hn
      have hnotin : n ∉ path ++ [cur] := of_decide_eq_true hn2.2
      have hnd2 : ((path ++ [cur]) ++ [n]).Nodup := by
        rw [List.nodup_append]
        refine ⟨hnd, List.nodup_singleton n, ?_⟩
        intro x hx hx2
        simp only [List.mem_singleton] at hx2
        subst hx2
        exact hnotin hx
      have := ih n (path ++ [cur]) hnd2 p hp
      refine ⟨this.1, ?_⟩
      have h3 := this.2
      simp only [List.length_append, List.length_singleton] at h3 ⊢
      omega

/-- C5: every path returned by `findPaths` is simple (visits each node at
most once) and respects the depth bound: a returned path lists at most
`maxDepth + 1` nodes, i.e. at most `maxDepth` edges. -/
theorem findPaths_simple (g : Graph) (src tgt : String) (d : Nat)
    (ps : List (List String)) (hok : findPaths g src tgt d = .ok ps) :
    ∀ p ∈ ps, p.Nodup ∧ p.length ≤ d + 1 := by
  unfold findPaths at hok
  split at hok
  · cases hok
    intro p hp
    have hp2 : p ∈ List.insertionSort (fun p q => p.length ≤ q.length)
        (dfsPaths g tgt d src []) := List.take_subset _ _ hp
    have hp3 : p ∈ dfsPaths g tgt d src [] :=
      (List.perm_insertionSort (fun p q => p.length ≤ q.length)
        (dfsPaths g tgt d src [])).subset hp2
    have := dfsPaths_sound g tgt d src [] (by simp) p hp3
    refine ⟨this.1, ?_⟩
    have h2 := this.2
    simp only [List.length_nil] at h2
    omega
  · cases hok

/-- Witness for C5 at a concrete input (the spec's example graph). -/
theorem findPaths_simple_witness :
    findPaths ⟨[⟨"A", "Host", []⟩, ⟨"B", "Host", []⟩],
        [⟨"A", "B", "CONNECTS_TO", []⟩]⟩ "A" "B" 5 = .ok [["A", "B"]]
      ∧ ∀ p ∈ [["A", "B"]], p.Nodup ∧ p.length ≤ 5 + 1 := by
  refine ⟨by rfl, ?_⟩
  exact findPaths_simple ⟨[⟨"A", "Host", []⟩, ⟨"B", "Host", []⟩],
    [⟨"A", "B", "CONNECTS_TO", []⟩]⟩ "A" "B" 5 [["A", "B"]] (by rfl)

/-! ## String inclusion (JS `String.prototype.includes`, lowercased) -/

/-- Whether `needle` occurs as a contiguous run inside the character
list. -/
def listContainsSub (needle : List Char) : List Char → Bool
  | [] => needle.isEmpty
  | c :: rest => needle.isPrefixOf (c :: rest) || listContainsSub needle rest

/-- JS `hay.includes(needle)`. -/
def strIncludes (hay needle : String) : Bool :=
  listContainsSub needle.data hay.data

/-- Lowercasing as a character-list map (JS `toLowerCase`, restricted to
the per-character case mapping). -/
def lowerChars (l : List Char) : List Char :=
  l.map Char.toLower

/-- JS `hay.toLowerCase().includes(needle.toLowerCase())`: case-insensitive
substring test. -/
def strIncludesCI (hay needle : String) : Bool :=
  listContainsSub (lowerChars needle.data) (lowerChars hay.data)

/-! ## Query Engine (§4.4) -/

/-- Modelled from the spec: the `dateRange` filter configuration.  The
spec's `end` key is rendered `stop` (`end` is a Lean keyword); ISO-8601
date strings are compared lexicographically, which agrees with their
chronological order. -/
structure DateRange where
  field : String
  start : String
  stop : String
  deriving DecidableEq, Repr

/-- Modelled from the spec: the `query(filters)` configuration (§4.4);
backend `query_builder.py` is not under src/.  Every filter is optional;
omitted filters are `none`.  Rendering the configuration as a structure
makes unknown keys unrepresentable, so the `InvalidFilter` branch is not
modelled. -/
structure QueryFilters where
  nodeType : Option (List String)
  textSearch : Option String
  properties : Option (List (String × Value))
  minDegree : Option Nat
  maxDegree : Option Nat
  dateRange : Option DateRange
  deriving DecidableEq, Repr

/-- An omitted (`none`) filter accepts everything. -/
def matchOpt {α : Type} (o : Option α) (p : α → Bool) : Bool :=
  match o with
  | none => true
  | some a => p a

/-- Whether a property value is a string containing the query,
case-insensitively. -/
def valueMatchesCI (q : String) (v : Value) : Bool :=
  match v with
  | .str s => strIncludesCI s q
  | _ => false

/-- Modelled from the spec: the conjunction of all configured node
predicates (AND across fields, OR within a field's list). -/
def nodeMatchesFilters (g : Graph) (f : QueryFilters) (n : Node) : Bool :=
  matchOpt f.nodeType (fun ts => decide (n.type ∈ ts))
    && matchOpt f.textSearch (fun q =>
        strIncludesCI n.id q
          || n.properties.any (fun kv => valueMatchesCI q kv.2))
    && matchOpt f.properties (fun ps =>
        ps.all (fun kv => decide (n.properties.lookup kv.1 = some kv.2)))
    && matchOpt f.minDegree (fun d => decide (d ≤ g.degree n.id))
    && matchOpt f.maxDegree (fun d => decide (g.degree n.id ≤ d))
    && matchOpt f.dateRange (fun r =>
        match n.properties.lookup r.field with
        | some (.str s) => decide (r.start ≤ s) && decide (s ≤ r.stop)
        | _ => false)

/-- Modelled from the spec: the `{nodes, edges, count}` query result. -/
structure QueryResult where
  nodes : List Node
  edges : List Edge
  count : Nat
  deriving DecidableEq, Repr

/-- The nodes surviving the node filter. -/
def queryNodes (g : Graph) (f : QueryFilters) : List Node :=
  g.nodes.filter (nodeMatchesFilters g f)

/-- The ids of the surviving nodes. -/
def queryIds (g : Graph) (f : QueryFilters) : List String :=
  (queryNodes g f).map (fun n => n.id)

/-- Modelled from the spec: `query(filters)` filters the nodes by the
configured predicates and keeps only the edges whose both endpoints
survive the node filter. -/
def query (g : Graph) (f : QueryFilters) : QueryResult :=
  ⟨queryNodes g f,
   g.edges.filter (fun e =>
     decide (e.source ∈ queryIds g f) && decide (e.target ∈ queryIds g f)),
   (queryNodes g f).length⟩

/-- C6: for every filter configuration, the returned nodes are a subset of
the full graph's nodes and every returned edge has both endpoints inside
the returned node set. -/
theorem query_containment (g : Graph) (f : QueryFilters) :
    (query g f).nodes ⊆ g.nodes
      ∧ ∀ e ∈ (query g f).edges,
          (∃ n ∈ (query g f).nodes, n.id = e.source)
            ∧ ∃ n ∈ (query g f).nodes, n.id = e.target := by
  constructor
  · intro n hn
    have hn' : n ∈ g.nodes.filter (nodeMatchesFilters g f) := hn
    exact List.mem_of_mem_filter hn'
  · intro e he
    have he' : e ∈ g.edges.filter (fun e =>
        decide (e.source ∈ queryIds g f) && decide (e.target ∈ queryIds g f)) := he
    have hb := (List.mem_filter.mp he').2
    simp only [Bool.and_eq_true, decide_eq_true_eq] at hb
    constructor
    · rcases List.mem_map.mp hb.1 with ⟨n, hn, hid⟩
      exact ⟨n, hn, hid⟩
    · rcases List.mem_map.mp hb.2 with ⟨n, hn, hid⟩
      exact ⟨n, hn, hid⟩

/-! ## Frontend text search (embedded from `src/unnamed/part_004`,
`searchNodes`) -/

/-- A node object as delivered to the frontend renderer: `id`, `type`, and
the node's properties flattened into further top-level fields (evidenced
by `NodeGrouping.js`'s `node[customGroup]` lookup and App.svelte's paste
handler destructuring). -/
structure JsNode where
  id : String
  type : String
  fields : List (String × Value)
  deriving DecidableEq, Repr

/-- `Object.values(node)` for that object shape: the id and type values
followed by the flattened property values. -/
def JsNode.objectValues (n : JsNode) : List Value :=
  .str n.id :: .str n.type :: n.fields.map (fun kv => kv.2)

/-- Embedded from `searchNodes` (src/unnamed/part_004): the text-search
predicate — `idMatch` is a case-insensitive substring test on the id, and
`propsMatch` scans `Object.values(node)` for a string value containing the
lowercased query. -/
def matchesTextSearch (n : JsNode) (q : String) : Bool :=
  strIncludesCI n.id q || n.objectValues.any (valueMatchesCI q)

/-- The claim's predicate, following the spec's words: the search string is
a case-insensitive substring of the node's id or of at least one
string-valued property. -/
def specTextMatch (n : JsNode) (q : String) : Prop :=
  strIncludesCI n.id q = true
    ∨ ∃ kv ∈ n.fields, valueMatchesCI q kv.2 = true

theorem valueMatchesCI_eq_true (q : String) (v : Value) :
    valueMatchesCI q v = true
      ↔ ∃ s, v = Value.str s ∧ strIncludesCI s q = true := by
  cases v <;> simp [valueMatchesCI]

/-- C8 counterexample: the node `{id: "a", type: "Host"}` (no properties)
satisfies the code's textSearch predicate for query `"host"` — the scan of
`Object.values(node)` also inspects the `type` field — although the search
string occurs neither in the id nor in any string-valued property, so the
claimed equivalence fails at this input. -/
theorem textSearch_claim_counterexample :
    ¬ (matchesTextSearch ⟨"a", "Host", []⟩ "host" = true
        ↔ specTextMatch ⟨"a", "Host", []⟩ "host") := by
  intro h
  have hcode : matchesTextSearch ⟨"a", "Host", []⟩ "host" = true := by decide
  rcases h.mp hcode with hid | ⟨kv, hkv, _⟩
  · exact absurd hid (by decide)
  · simp at hkv

/-- C8 (amended): a node satisfies the textSearch filter iff the search
string is a case-insensitive substring of the node's id, of the node's
type, or of at least one of the node's string-valued properties. -/
theorem matchesTextSearch_iff (n : JsNode) (q : String) :
    matchesTextSearch n q = true
      ↔ strIncludesCI n.id q = true
        ∨ strIncludesCI n.type q = true
        ∨ ∃ kv ∈ n.fields, ∃ s, kv.2 = Value.str s ∧ strIncludesCI s q = true := by
  unfold matchesTextSearch JsNode.objectValues
  simp only [Bool.or_eq_true, List.any_cons, List.any_eq_true, List.mem_map,
    valueMatchesCI_eq_true]
  constructor
  · rintro (h | h | h | ⟨v, ⟨kv, hkv, rfl⟩, s, hvs, hs⟩)
    · exact Or.inl h
    · rcases h with ⟨s, hs1, hs2⟩
      cases hs1
      exact Or.inl hs2
    · rcases h with ⟨s, hs1, hs2⟩
      cases hs1
      exact Or.inr (Or.inl hs2)
    · exact Or.inr (Or.inr ⟨kv, hkv, s, hvs, hs⟩)
  · rintro (h | h | ⟨kv, hkv, s, hs, hm⟩)
    · exact Or.inl h
    · exact Or.inr (Or.inr (Or.inl ⟨n.type, rfl, h⟩))
    · exact Or.inr (Or.inr (Or.inr ⟨kv.2, ⟨kv, hkv, rfl⟩, s, hs, hm⟩))

/-! ## Node grouping (embedded from
`src/frontend/src/components/NodeGrouping.js`, `handleGroupBy`) -/

/-- The grouping modes other than `'none'` (which returns early without
building groups). -/
inductive GroupType where
  | type
  | firstLetter
  | custom
  deriving DecidableEq, Repr

/-- JS truthiness of a property value. -/
def jsTruthy : Value → Bool
  | .str s => decide (s ≠ "")
  | .num n => decide (n ≠ 0)
  | .boolean b => b
  | .null => false

/-- The string a value coerces to when used as an object key. -/
def valueToKey : Value → String
  | .str s => s
  | .num n => toString n
  | .boolean b => if b then "true" else "false"
  | .null => "null"

/-- JS field access `node[k]` on the flattened node object. -/
def JsNode.jsField (n : JsNode) (k : String) : Option Value :=
  if k = "id" then some (.str n.id)
  else if k = "type" then some (.str n.type)
  else n.fields.lookup k

/-- Embedded from `handleGroupBy`: the group key of a node —
`node.type || 'Unknown'`, `(node.id || '').charAt(0).toUpperCase() ||
'Other'`, or `node[customGroup] || 'ungrouped'` (key coerced to a string;
a falsy lookup falls back to `'ungrouped'`, as does an empty
`customGroup`). -/
def groupKeyOf (gt : GroupType) (customGroup : String) (n : JsNode) : String :=
  match gt with
  | .type => if n.type = "" then "Unknown" else n.type
  | .firstLetter =>
    match n.id.data with
    | [] => "Other"
    | c :: _ => String.mk [c.toUpper]
  | .custom =>
    if customGroup = "" then "ungrouped"
    else
      match n.jsField customGroup with
      | some v => if jsTruthy v then valueToKey v else "ungrouped"
      | none => "ungrouped"

/-- A thrown JS exception (the only kind `handleGroupBy` can raise). -/
inductive JsError where
  | typeError
  deriving DecidableEq, Repr

/-- The member names a plain object `{}` inherits from `Object.prototype`
(standard members plus the Annex B accessors present in browsers and
Node).  For these keys, `groups[groupKey]` finds the inherited member even
though no own key exists. -/
def objectProtoKeys : List String :=
  ["constructor", "hasOwnProperty", "isPrototypeOf", "propertyIsEnumerable",
   "toLocaleString", "toString", "valueOf", "__proto__",
   "__defineGetter__", "__defineSetter__", "__lookupGetter__",
   "__lookupSetter__"]

/-- Embedded from `handleGroupBy`: `if (!groups[groupKey])
groups[groupKey] = []; groups[groupKey].push(node.id)` on the plain object
`groups = {}`.  An own key always holds an array (truthy): push onto it.
Otherwise `groups[groupKey]` walks the prototype chain: for an
`Object.prototype` member name the inherited member is truthy, the
initialisation is skipped, and calling `.push` on it throws a TypeError;
for any other absent key the lookup is `undefined` (falsy), so a fresh
one-element array is installed. -/
def pushGroup (gs : List (String × List String)) (k v : String) :
    Except JsError (List (String × List String)) :=
  if gs.any (fun g => decide (g.1 = k)) then
    .ok (gs.map (fun g => if g.1 = k then (g.1, g.2 ++ [v]) else g))
  else if k ∈ objectProtoKeys then
    .error .typeError
  else
    .ok (gs ++ [(k, [v])])

/-- Embedded from `handleGroupBy`: the `graphData.nodes.forEach` loop that
builds the `groups` object; a TypeError thrown by an iteration aborts the
whole call. -/
def groupFold (κ : JsNode → String) :
    List JsNode → List (String × List String) →
      Except JsError (List (String × List String))
  | [], gs => .ok gs
  | n :: rest, gs =>
    match pushGroup gs (κ n) n.id with
    | .ok gs' => groupFold κ rest gs'
    | .error e => .error e

/-- Embedded from `handleGroupBy`: the `{groups, groupCount}` payload for a
grouping type other than `'none'`; `groupCount` is
`Object.keys(groups).length`.  Propagates the TypeError thrown when a
group key collides with an `Object.prototype` member name. -/
def handleGroupBy (gt : GroupType) (customGroup : String)
    (nodes : List JsNode) :
    Except JsError (List (String × List String) × Nat) :=
  match groupFold (groupKeyOf gt customGroup) nodes [] with
  | .ok groups => .ok (groups, groups.length)
  | .error e => .error e

/-- The invariant of the grouping fold: the keys are distinct, every
entry's list is exactly the ids of the processed nodes with that key,
every processed node's key appears, every key stems from a processed node,
and the lists' total length counts the processed nodes. -/
def GroupInv (κ : JsNode → String) (p : List JsNode)
    (gs : List (String × List String)) : Prop :=
  (gs.map Prod.fst).Nodup
    ∧ (∀ e ∈ gs, e.2 = (p.filter (fun x => decide (κ x = e.1))).map (fun x => x.id))
    ∧ (∀ x ∈ p, κ x ∈ gs.map Prod.fst)
    ∧ (∀ e ∈ gs, e.1 ∈ p.map κ)
    ∧ ((gs.map (fun e => e.2.length)).sum = p.length)

theorem push_keys_unchanged (k v : String) (gs : List (String × List String)) :
    (gs.map (fun g => if g.1 = k then (g.1, g.2 ++ [v]) else g)).map Prod.fst
      = gs.map Prod.fst := by
  induction gs with
  | nil => rfl
  | cons g gs ih =>
    simp only [List.map_cons]
    rw [ih]
    split
    · rfl
    · rfl

theorem push_map_untouched (k v : String) (gs : List (String × List String))
    (h : ∀ e ∈ gs, e.1 ≠ k) :
    gs.map (fun g => if g.1 = k then (g.1, g.2 ++ [v]) else g) = gs := by
  induction gs with
  | nil => rfl
  | cons g gs ih =>
    simp only [List.map_cons]
    rw [if_neg (h g (List.mem_cons_self g gs))]
    rw [ih (fun e he => h e (List.mem_cons_of_mem g he))]

theorem sum_map_push (k v : String) :
    ∀ gs : List (String × List String), (gs.map Prod.fst).Nodup →
      (∃ e ∈ gs, e.1 = k) →
      ((gs.map (fun g => if g.1 = k then (g.1, g.2 ++ [v]) else g)).map
          (fun e => e.2.length)).sum
        = (gs.map (fun e => e.2.length)).sum + 1 := by
  intro gs
  induction gs with
  | nil => intro _ h; simp at h
  | cons g gs ih =>
    intro hnd hex
    simp only [List.map_cons, List.nodup_cons] at hnd
    by_cases hg : g.1 = k
    · have huntouched : gs.map (fun g => if g.1 = k then (g.1, g.2 ++ [v]) else g) = gs := by
        refine push_map_untouched k v gs ?_
        intro e he hek
        exact hnd.1 (hg ▸ hek ▸ List.mem_map.mpr ⟨e, he, rfl⟩)
      simp only [List.map_cons, if_pos hg, huntouched, List.sum_cons]
      simp only [List.length_append, List.length_singleton]
      omega
    · rcases hex with ⟨e, he, hek⟩
      rcases List.mem_cons.mp he with rfl | he'
      · exact absurd hek hg
      · simp only [List.map_cons, if_neg hg, List.sum_cons]
        rw [ih hnd.2 ⟨e, he', hek⟩]
        omega

theorem groupInv_step (κ : JsNode → String) (p : List JsNode)
    (gs gs' : List (String × List String)) (n : JsNode) (h : GroupInv κ p gs)
    (hok : pushGroup gs (κ n) n.id = .ok gs') :
    GroupInv κ (p ++ [n]) gs' := by
  obtain ⟨hnd, hchar, hcov, hsrc, hsum⟩ := h
  unfold pushGroup at hok
  by_cases hmem : ∃ e ∈ gs, e.1 = κ n
  · rw [if_pos (List.any_eq_true.mpr (by
      rcases hmem with ⟨e, he, hek⟩
      exact ⟨e, he, decide_eq_true hek⟩))] at hok
    have hgs : gs' = gs.map (fun g =>
        if g.1 = κ n then (g.1, g.2 ++ [n.id]) else g) :=
      (Except.ok.inj hok).symm
    subst hgs
    have hkeys : (gs.map (fun g =>
        if g.1 = κ n then (g.1, g.2 ++ [n.id]) else g)).map Prod.fst
          = gs.map Prod.fst := push_keys_unchanged (κ n) n.id gs
    refine ⟨by rw [hkeys]; exact hnd, ?_, ?_, ?_, ?_⟩
    · intro e' he'
      rcases List.mem_map.mp he' with ⟨e, he, hfe⟩
      by_cases hek : e.1 = κ n
      · rw [if_pos hek] at hfe
        subst hfe
        simp only [List.filter_append, List.map_append]
        rw [← hchar e he]
        congr 1
        simp [hek]
      · rw [if_neg hek] at hfe
        subst hfe
        simp only [List.filter_append, List.map_append]
        rw [← hchar e he]
        have : ([n].filter (fun x => decide (κ x = e.1))) = [] := by
          simp only [List.filter]
          rw [decide_eq_false (fun hc => hek hc.symm)]
        rw [this]
        simp
    · intro x hx
      rw [hkeys]
      rcases List.mem_append.mp hx with hx' | hx'
      · exact hcov x hx'
      · simp only [List.mem_singleton] at hx'
        subst hx'
        rcases hmem with ⟨e, he, hek⟩
        exact hek ▸ List.mem_map.mpr ⟨e, he, rfl⟩
    · intro e' he'
      rcases List.mem_map.mp he' with ⟨e, he, hfe⟩
      have he1 : e'.1 = e.1 := by
        subst hfe
        split
        · rfl
        · rfl
      rw [he1, List.map_append]
      exact List.mem_append_left _ (hsrc e he)
    · rw [sum_map_push (κ n) n.id gs hnd hmem, hsum]
      simp
  · rw [if_neg (by
      intro hc
      rcases List.any_eq_true.mp hc with ⟨e, he, hek⟩
      exact hmem ⟨e, he, of_decide_eq_true hek⟩)] at hok
    split at hok
    · cases hok
    have hgs : gs' = gs ++ [(κ n, [n.id])] := (Except.ok.inj hok).symm
    subst hgs
    have hfresh : κ n ∉ gs.map Prod.fst := by
      intro hc
      rcases List.mem_map.mp hc with ⟨e, he, hek⟩
      exact hmem ⟨e, he, hek⟩
    refine ⟨?_, ?_, ?_, ?_, ?_⟩
    · simp only [List.map_append, List.map_cons, List.map_nil]
      rw [List.nodup_append]
      refine ⟨hnd, List.nodup_singleton _, ?_⟩
      intro a ha ha2
      simp only [List.mem_singleton] at ha2
      subst ha2
      exact hfresh ha
    · intro e' he'
      rcases List.mem_append.mp he' with he | he
      · have hek : e'.1 ≠ κ n := by
          intro hc
          exact hfresh (hc ▸ List.mem_map.mpr ⟨e', he, rfl⟩)
        simp only [List.filter_append, List.map_append]
        rw [← hchar e' he]
        have : ([n].filter (fun x => decide (κ x = e'.1))) = [] := by
          simp only [List.filter]
          rw [decide_eq_false (fun hc => hek hc.symm)]
        rw [this]
        simp
      · simp only [List.mem_singleton] at he
        subst he
        simp only [List.filter_append]
        have h1 : (p.filter (fun x => decide (κ x = κ n))) = [] := by
          rw [List.filter_eq_nil_iff]
          intro x hx hc
          exact hfresh ((of_decide_eq_true hc) ▸ hcov x hx)
        have h2 : ([n].filter (fun x => decide (κ x = κ n))) = [n] := by
          simp
        rw [h1, h2]
        simp
    · intro x hx
      simp only [List.map_append, List.map_cons, List.map_nil]
      rcases List.mem_append.mp hx with hx' | hx'
      · exact List.mem_append_left _ (hcov x hx')
      · simp only [List.mem_singleton] at hx'
        subst hx'
        exact List.mem_append_right _ (by simp)
    · intro e' he'
      simp only [List.map_append, List.map_cons, List.map_nil]
      rcases List.mem_append.mp he' with he | he
      · exact List.mem_append_left _ (hsrc e' he)
      · simp only [List.mem_singleton] at he
        subst he
        exact List.mem_append_right _ (by simp)
    · simp only [List.map_append, List.sum_append, List.map_cons, List.map_nil]
      simp only [hsum]
      simp

theorem groupFold_inv (κ : JsNode → String) (rest : List JsNode) :
    ∀ (p : List JsNode) (gs out : List (String × List String)),
      GroupInv κ p gs → groupFold κ rest gs = .ok out →
      GroupInv κ (p ++ rest) out := by
  induction rest with
  | nil =>
    intro p gs out h hok
    have hgs : gs = out := Except.ok.inj hok
    subst hgs
    simpa using h
  | cons n rest ih =>
    intro p gs out h hok
    unfold groupFold at hok
    cases hpush : pushGroup gs (κ n) n.id with
    | error e => rw [hpush] at hok; cases hok
    | ok gs1 =>
      rw [hpush] at hok
      have h2 := ih (p ++ [n]) gs1 out (groupInv_step κ p gs gs1 n h hpush) hok
      simpa using h2

theorem groupInv_full (κ : JsNode → String) (nodes : List JsNode)
    (out : List (String × List String)) (h : groupFold κ nodes [] = .ok out) :
    GroupInv κ nodes out := by
  have h2 := groupFold_inv κ nodes [] [] out
    ⟨List.nodup_nil, by simp, by simp, by simp, rfl⟩ h
  simpa using h2

theorem filter_eq_singleton_of_unique_key
    (p : String × List String → Bool) (k0 : String) (l0 : List String) :
    ∀ gs : List (String × List String), (gs.map Prod.fst).Nodup →
      (k0, l0) ∈ gs → p (k0, l0) = true →
      (∀ e ∈ gs, p e = true → e.1 = k0) →
      gs.filter p = [(k0, l0)] := by
  intro gs
  induction gs with
  | nil => intro _ h; simp at h
  | cons e gs ih =>
    intro hnd hmem hp hall
    simp only [List.map_cons, List.nodup_cons] at hnd
    rcases List.mem_cons.mp hmem with rfl | hmem'
    · simp only [List.filter_cons, if_pos hp]
      congr 1
      rw [List.filter_eq_nil_iff]
      intro e' he' hpe'
      exact hnd.1 ((hall e' (List.mem_cons_of_mem _ he') hpe') ▸
        List.mem_map.mpr ⟨e', he', rfl⟩)
    · have hpe : p e = false := by
        by_contra hc
        have := hall e (List.mem_cons_self e gs) (eq_true_of_ne_false hc)
        exact hnd.1 (this ▸ List.mem_map.mpr ⟨(k0, l0), hmem', rfl⟩)
      simp only [List.filter_cons, hpe, if_neg Bool.false_ne_true]
      exact ih hnd.2 hmem' hp (fun e' he' => hall e' (List.mem_cons_of_mem _ he'))

/-- C10 counterexample: grouping the single node `{id: "A", type:
"toString"}` by type makes the group key the `Object.prototype` member
name `toString` — `groups[groupKey]` finds the inherited (truthy)
function, the array initialisation is skipped, and `.push` on the
inherited member throws a TypeError.  `handleGroupBy` produces no groups
object at all at this input, so the claimed universal partition property
fails. -/
theorem handleGroupBy_claim_counterexample :
    handleGroupBy .type "" [⟨"A", "toString", []⟩] = .error .typeError
      ∧ ∀ r : List (String × List String) × Nat,
          handleGroupBy .type "" [⟨"A", "toString", []⟩] ≠ .ok r := by
  refine ⟨rfl, ?_⟩
  intro r h
  rw [show handleGroupBy .type "" [⟨"A", "toString", []⟩]
    = Except.error JsError.typeError from rfl] at h
  cases h

/-- C10 (amended): for any grouping type other than `'none'`, whenever
`handleGroupBy` completes without throwing — its group keys avoid the
`Object.prototype` member names, on which the `groups[groupKey]`
prototype-chain lookup makes `.push` throw a TypeError — the groups object
it produces partitions the node ids: the group lists' total length equals
the number of nodes, each node's id lies in exactly one group's list, and
`groupCount` is the number of distinct group keys. -/
theorem handleGroupBy_partitions (gt : GroupType) (cg : String)
    (nodes : List JsNode) (r : List (String × List String) × Nat)
    (hids : (nodes.map (fun n => n.id)).Nodup)
    (hok : handleGroupBy gt cg nodes = .ok r) :
    (r.1.map (fun e => e.2.length)).sum = nodes.length
      ∧ (∀ n ∈ nodes, r.1.countP (fun e => decide (n.id ∈ e.2)) = 1)
      ∧ r.2 = (nodes.map (groupKeyOf gt cg)).toFinset.card := by
  unfold handleGroupBy at hok
  cases hgf : groupFold (groupKeyOf gt cg) nodes [] with
  | error e => rw [hgf] at hok; cases hok
  | ok groups =>
    rw [hgf] at hok
    have hr : r = (groups, groups.length) := (Except.ok.inj hok).symm
    subst hr
    obtain ⟨hnd, hchar, hcov, hsrc, hsum⟩ :=
      groupInv_full (groupKeyOf gt cg) nodes groups hgf
    refine ⟨hsum, ?_, ?_⟩
    · intro n hn
      show groups.countP (fun e => decide (n.id ∈ e.2)) = 1
      have hk : groupKeyOf gt cg n ∈ groups.map Prod.fst := hcov n hn
      rcases List.mem_map.mp hk with ⟨e0, he0, hke0⟩
      have hid_in : n.id ∈ e0.2 := by
        rw [hchar e0 he0]
        refine List.mem_map.mpr ⟨n, ?_, rfl⟩
        rw [List.mem_filter]
        exact ⟨hn, decide_eq_true (by rw [hke0])⟩
      have hall : ∀ e ∈ groups,
          (fun e => decide (n.id ∈ e.2)) e = true → e.1 = e0.1 := by
        intro e he hpe
        have hin : n.id ∈ e.2 := of_decide_eq_true hpe
        rw [hchar e he] at hin
        rcases List.mem_map.mp hin with ⟨x, hx, hxid⟩
        have hx2 := List.mem_filter.mp hx
        have hkx : groupKeyOf gt cg x = e.1 := of_decide_eq_true hx2.2
        have hxn : x = n := List.inj_on_of_nodup_map hids hx2.1 hn hxid
        rw [← hkx, hxn, ← hke0]
      rw [List.countP_eq_length_filter]
      rw [filter_eq_singleton_of_unique_key _ e0.1 e0.2 groups hnd
        (by simpa using he0) (decide_eq_true hid_in) hall]
      rfl
    · show groups.length = (nodes.map (groupKeyOf gt cg)).toFinset.card
      have hset : (groups.map Prod.fst).toFinset
          = (nodes.map (groupKeyOf gt cg)).toFinset := by
        ext a
        simp only [List.mem_toFinset]
        constructor
        · intro ha
          rcases List.mem_map.mp ha with ⟨e, he, hea⟩
          exact hea ▸ hsrc e he
        · intro ha
          rcases List.mem_map.mp ha with ⟨x, hx, hxa⟩
          exact hxa ▸ hcov x hx
      calc groups.length
          = (groups.map Prod.fst).length := (List.length_map _ _).symm
        _ = (groups.map Prod.fst).toFinset.card :=
            (List.toFinset_card_of_nodup hnd).symm
        _ = (nodes.map (groupKeyOf gt cg)).toFinset.card := by rw [hset]

/-- Witness for C10 (amended) at a concrete input where the call
succeeds. -/
theorem handleGroupBy_partitions_witness :
    (([(("Host" : String), ["A", "C"]), ("IP", ["B"])].map
        (fun e => e.2.length)).sum = 3)
      ∧ (∀ n ∈ [(⟨"A", "Host", []⟩ : JsNode), ⟨"B", "IP", []⟩, ⟨"C", "Host", []⟩],
          [(("Host" : String), ["A", "C"]), ("IP", ["B"])].countP
            (fun e => decide (n.id ∈ e.2)) = 1)
      ∧ (2 : Nat) = ([(⟨"A", "Host", []⟩ : JsNode), ⟨"B", "IP", []⟩,
          ⟨"C", "Host", []⟩].map (groupKeyOf .type "")).toFinset.card :=
  handleGroupBy_partitions .type ""
    [⟨"A", "Host", []⟩, ⟨"B", "IP", []⟩, ⟨"C", "Host", []⟩]
    ([("Host", ["A", "C"]), ("IP", ["B"])], 2) (by decide) (by rfl)

/-! ## Bloodweb layout levels (embedded from `src/unnamed/part_008`,
`calculateBloodwebLayout`)

The function's level-assignment phase: build an undirected adjacency map
from the links, pick the most-connected node as root, BFS from the root
recording hop levels, and give every untouched node `maxLevel + 1`.  (The
subsequent coordinate phase uses floating-point trigonometry and is not
part of the claim.)  A link's `source`/`target` are embedded as the
resolved string ids (`link.source.id` when d3 has objectified them). -/

/-- A rendered graph link with resolved endpoint ids. -/
structure Link where
  source : String
  target : String
  deriving DecidableEq, Repr

/-- The JS `Map` of adjacency lists, as an ordered key/value list. -/
abbrev AdjMap := List (String × List String)

/-- `if (!linkMap.has(k)) linkMap.set(k, [])`. -/
def ensureKey (m : AdjMap) (k : String) : AdjMap :=
  if m.any (fun e => decide (e.1 = k)) then m else m ++ [(k, [])]

/-- `linkMap.get(k).push(v)`. -/
def pushVal (m : AdjMap) (k v : String) : AdjMap :=
  m.map (fun e => if e.1 = k then (e.1, e.2 ++ [v]) else e)

/-- One iteration of the link loop: make sure both endpoints have entries,
then record the neighbor in both directions. -/
def addLink (m : AdjMap) (l : Link) : AdjMap :=
  pushVal (pushVal (ensureKey (ensureKey m l.source) l.target)
    l.source l.target) l.target l.source

/-- `data.links.forEach(...)`: the adjacency map of the whole link list. -/
def linkMapBuild (links : List Link) : AdjMap :=
  links.foldl addLink []

/-- `linkMap.get(k) || []`. -/
def adj (m : AdjMap) (k : String) : List String :=
  (m.lookup k).getD []

/-- Embedded root choice: start from `data.nodes[0]?.id` with
`maxConnections = 0` and switch to any node with strictly more adjacency
entries. -/
def chooseRoot (nodes : List JsNode) (m : AdjMap) : String :=
  (nodes.foldl
    (fun best n =>
      if (adj m n.id).length > best.2 then (n.id, (adj m n.id).length) else best)
    (((nodes.head?).map (fun n => n.id)).getD "", 0)).1

/-- The BFS working state: the `visited` set, the pending `queue` of
`{id, level}` records, and the `levels` map (all in insertion order). -/
structure BfsState where
  visited : List String
  queue : List (String × Nat)
  levels : List (String × Nat)
  deriving DecidableEq, Repr

/-- The body of `neighbors.forEach`: an unvisited neighbor is marked
visited, assigned `current.level + 1` and enqueued. -/
def bfsStep (lvl : Nat) (st : BfsState) (nb : String) : BfsState :=
  if nb ∈ st.visited then st
  else ⟨st.visited ++ [nb], st.queue ++ [(nb, lvl + 1)], st.levels ++ [(nb, lvl + 1)]⟩

/-- Processing one dequeued record: visit all of its neighbors. -/
def bfsProcess (m : AdjMap) (cur : String) (lvl : Nat) (st : BfsState) : BfsState :=
  (adj m cur).foldl (bfsStep lvl) st

/-- The `while (queue.length > 0)` loop.  The fuel argument only bounds the
iteration count; `runBfs` supplies enough fuel for the loop to drain the
queue (each iteration shrinks `unvisited-keys + queue-length`). -/
def bfsLoop (m : AdjMap) : Nat → BfsState → BfsState
  | 0, st => st
  | fuel + 1, st =>
    match st.queue with
    | [] => st
    | (cur, lvl) :: rest =>
      bfsLoop m fuel (bfsProcess m cur lvl ⟨st.visited, rest, st.levels⟩)

/-- The loop's starting state: the root is visited at level 0. -/
def bfsInit (root : String) : BfsState :=
  ⟨[root], [(root, 0)], [(root, 0)]⟩

/-- The drained BFS state. -/
def runBfs (m : AdjMap) (root : String) : BfsState :=
  bfsLoop m (m.length + 1) (bfsInit root)

/-- `Math.max(...Array.from(levels.values()), 0)`. -/
def maxLevelOf (levels : List (String × Nat)) : Nat :=
  (levels.map Prod.snd).foldl max 0

/-- The level finally assigned to the node with id `x`: its BFS level, or
`maxLevel + 1` when BFS never reached it. -/
def nodeLevel (nodes : List JsNode) (links : List Link) (x : String) : Nat :=
  match (runBfs (linkMapBuild links) (chooseRoot nodes (linkMapBuild links))).levels.lookup x with
  | some l => l
  | none =>
    maxLevelOf (runBfs (linkMapBuild links)
      (chooseRoot nodes (linkMapBuild links))).levels + 1

/-- Undirected walks over the adjacency map: `WalkLen m r x k` means a walk
of exactly `k` hops from `r` to `x`. -/
inductive WalkLen (m : AdjMap) (r : String) : String → Nat → Prop where
  | refl : WalkLen m r r 0
  | step {x y : String} {k : Nat} :
      WalkLen m r x k → y ∈ adj m x → WalkLen m r y (k + 1)

/-- Reachability: some walk of some length exists. -/
def Reaches (m : AdjMap) (r x : String) : Prop :=
  ∃ k, WalkLen m r x k

/-! ### Association-list lookup lemmas -/

theorem lookup_cons {β : Type} (k : String) (e : String × β)
    (t : List (String × β)) :
    (e :: t).lookup k = if k = e.1 then some e.2 else t.lookup k := by
  rcases e with ⟨a, b⟩
  show List.lookup k ((a, b) :: t) = _
  simp only [List.lookup]
  cases h : (k == a) with
  | false =>
    have hne : k ≠ a := by
      intro hc
      subst hc
      simp at h
    rw [if_neg hne]
  | true =>
    have heq : k = a := by simpa using h
    rw [if_pos heq]

theorem lookup_mem {β : Type} {l : List (String × β)} {k : String} {v : β}
    (h : l.lookup k = some v) : (k, v) ∈ l := by
  induction l with
  | nil => cases h
  | cons e t ih =>
    rw [lookup_cons] at h
    split at h
    · next heq =>
      cases h
      rcases e with ⟨k0, v0⟩
      subst heq
      exact List.mem_cons_self _ _
    · exact List.mem_cons_of_mem _ (ih h)

theorem lookup_eq_of_mem_nodup {β : Type} {l : List (String × β)} {k : String}
    {v : β} (hnd : (l.map Prod.fst).Nodup) (hm : (k, v) ∈ l) :
    l.lookup k = some v := by
  induction l with
  | nil => simp at hm
  | cons e t ih =>
    simp only [List.map_cons, List.nodup_cons] at hnd
    rw [lookup_cons]
    rcases List.mem_cons.mp hm with rfl | hm'
    · rw [if_pos rfl]
    · split
      · next heq =>
        exact absurd (heq ▸ List.mem_map.mpr ⟨(k, v), hm', rfl⟩) hnd.1
      · exact ih hnd.2 hm'

theorem lookup_append_some {β : Type} {l l2 : List (String × β)} {k : String}
    {v : β} (h : l.lookup k = some v) : (l ++ l2).lookup k = some v := by
  induction l with
  | nil => cases h
  | cons e t ih =>
    rw [lookup_cons] at h
    rw [List.cons_append, lookup_cons]
    split at h
    · next heq =>
      rw [if_pos heq]
      exact h
    · next heq =>
      rw [if_neg heq]
      exact ih h

theorem lookup_append_of_not_mem {β : Type} {l l2 : List (String × β)}
    {k : String} (h : k ∉ l.map Prod.fst) :
    (l ++ l2).lookup k = l2.lookup k := by
  induction l with
  | nil => rfl
  | cons e t ih =>
    simp only [List.map_cons, List.mem_cons] at h
    push_neg at h
    rw [List.cons_append, lookup_cons]
    rw [if_neg h.1]
    exact ih h.2

theorem lookup_eq_none_iff {β : Type} {l : List (String × β)} {k : String} :
    l.lookup k = none ↔ k ∉ l.map Prod.fst := by
  induction l with
  | nil => simp
  | cons e t ih =>
    rw [lookup_cons]
    constructor
    · intro h
      split at h
      · cases h
      · next heq =>
        intro hc
        simp only [List.map_cons, List.mem_cons] at hc
        rcases hc with hc | hc
        · exact heq hc
        · exact (ih.mp h) hc
    · intro h
      simp only [List.map_cons, List.mem_cons] at h
      push_neg at h
      rw [if_neg h.1]
      exact ih.mpr h.2

/-! ### Structure of the built adjacency map -/

theorem pushVal_keys (m : AdjMap) (k v : String) :
    (pushVal m k v).map Prod.fst = m.map Prod.fst :=
  push_keys_unchanged k v m

theorem ensureKey_mem (m : AdjMap) (k : String) :
    k ∈ (ensureKey m k).map Prod.fst := by
  unfold ensureKey
  split
  · next h =>
    rcases List.any_eq_true.mp h with ⟨e, he, hek⟩
    exact (of_decide_eq_true hek) ▸ List.mem_map.mpr ⟨e, he, rfl⟩
  · simp

theorem ensureKey_keys_mono (m : AdjMap) (k x : String)
    (h : x ∈ m.map Prod.fst) : x ∈ (ensureKey m k).map Prod.fst := by
  unfold ensureKey
  split
  · exact h
  · simp only [List.map_append]
    exact List.mem_append_left _ h

theorem ensureKey_keys_cases (m : AdjMap) (k x : String)
    (h : x ∈ (ensureKey m k).map Prod.fst) :
    x ∈ m.map Prod.fst ∨ x = k := by
  unfold ensureKey at h
  split at h
  · exact Or.inl h
  · simp only [List.map_append, List.map_cons, List.map_nil] at h
    rcases List.mem_append.mp h with h' | h'
    · exact Or.inl h'
    · simp only [List.mem_singleton] at h'
      exact Or.inr h'

theorem ensureKey_keys_nodup (m : AdjMap) (k : String)
    (h : (m.map Prod.fst).Nodup) : ((ensureKey m k).map Prod.fst).Nodup := by
  unfold ensureKey
  split
  · exact h
  · next hany =>
    simp only [List.map_append, List.map_cons, List.map_nil]
    rw [List.nodup_append]
    refine ⟨h, List.nodup_singleton _, ?_⟩
    intro x hx hx2
    simp only [List.mem_singleton] at hx2
    subst hx2
    rcases List.mem_map.mp hx with ⟨e, he, hek⟩
    exact hany (List.any_eq_true.mpr ⟨e, he, decide_eq_true hek⟩)

theorem addLink_keys_nodup (m : AdjMap) (l : Link)
    (h : (m.map Prod.fst).Nodup) : ((addLink m l).map Prod.fst).Nodup := by
  unfold addLink
  rw [pushVal_keys, pushVal_keys]
  exact ensureKey_keys_nodup _ _ (ensureKey_keys_nodup _ _ h)

theorem linkMap_keys_nodup (links : List Link) :
    ((linkMapBuild links).map Prod.fst).Nodup := by
  unfold linkMapBuild
  have h : ∀ (ls : List Link) (m : AdjMap), (m.map Prod.fst).Nodup →
      ((ls.foldl addLink m).map Prod.fst).Nodup := by
    intro ls
    induction ls with
    | nil => intro m hm; exact hm
    | cons l ls ih => intro m hm; exact ih _ (addLink_keys_nodup m l hm)
  exact h links [] List.nodup_nil

/-- Every value stored in some adjacency list is itself a key of the map. -/
def AdjClosed (m : AdjMap) : Prop :=
  ∀ e ∈ m, ∀ y ∈ e.2, y ∈ m.map Prod.fst

theorem ensureKey_closed (m : AdjMap) (k : String) (h : AdjClosed m) :
    AdjClosed (ensureKey m k) := by
  intro e he y hy
  unfold ensureKey at he
  split at he
  · exact ensureKey_keys_mono m k _ (h e he y hy)
  · rcases List.mem_append.mp he with he' | he'
    · exact ensureKey_keys_mono m k _ (h e he' y hy)
    · simp only [List.mem_singleton] at he'
      subst he'
      simp at hy

theorem pushVal_closed (m : AdjMap) (k v : String) (h : AdjClosed m)
    (hv : v ∈ m.map Prod.fst) : AdjClosed (pushVal m k v) := by
  intro e he y hy
  rw [pushVal_keys]
  unfold pushVal at he
  rcases List.mem_map.mp he with ⟨e0, he0, hfe⟩
  by_cases hek : e0.1 = k
  · rw [if_pos hek] at hfe
    subst hfe
    simp only at hy
    rcases List.mem_append.mp hy with hy' | hy'
    · exact h e0 he0 y hy'
    · simp only [List.mem_singleton] at hy'
      subst hy'
      exact hv
  · rw [if_neg hek] at hfe
    subst hfe
    exact h e0 he0 y hy

theorem addLink_closed (m : AdjMap) (l : Link) (h : AdjClosed m) :
    AdjClosed (addLink m l) := by
  unfold addLink
  have h1 := ensureKey_closed m l.source h
  have h2 := ensureKey_closed _ l.target h1
  have hs : l.source ∈ ((ensureKey (ensureKey m l.source) l.target).map Prod.fst) :=
    ensureKey_keys_mono _ _ _ (ensureKey_mem m l.source)
  have ht : l.target ∈ ((ensureKey (ensureKey m l.source) l.target).map Prod.fst) :=
    ensureKey_mem _ l.target
  have h3 := pushVal_closed _ l.source l.target h2 ht
  have ht2 : l.target ∈ ((pushVal (ensureKey (ensureKey m l.source) l.target)
      l.source l.target).map Prod.fst) := by
    rw [pushVal_keys]
    exact ht
  have hs2 : l.source ∈ ((pushVal (ensureKey (ensureKey m l.source) l.target)
      l.source l.target).map Prod.fst) := by
    rw [pushVal_keys]
    exact hs
  exact pushVal_closed _ l.target l.source h3 hs2

theorem linkMap_closed (links : List Link) : AdjClosed (linkMapBuild links) := by
  unfold linkMapBuild
  have h : ∀ (ls : List Link) (m : AdjMap), AdjClosed m →
      AdjClosed (ls.foldl addLink m) := by
    intro ls
    induction ls with
    | nil => intro m hm; exact hm
    | cons l ls ih => intro m hm; exact ih _ (addLink_closed m l hm)
  exact h links [] (by intro e he; simp at he)

theorem adj_mem_keys {m : AdjMap} (h : AdjClosed m) (k : String) :
    ∀ y ∈ adj m k, y ∈ m.map Prod.fst := by
  intro y hy
  unfold adj at hy
  cases hl : m.lookup k with
  | none => rw [hl] at hy; simp at hy
  | some vs =>
    rw [hl] at hy
    simp only [Option.getD_some] at hy
    exact h (k, vs) (lookup_mem hl) y hy

theorem linkMap_keys_endpoints (links : List Link) :
    ∀ k ∈ (linkMapBuild links).map Prod.fst,
      ∃ l ∈ links, k = l.source ∨ k = l.target := by
  unfold linkMapBuild
  have h : ∀ (ls : List Link) (m : AdjMap),
      ∀ k ∈ ((ls.foldl addLink m).map Prod.fst),
        k ∈ m.map Prod.fst ∨ ∃ l ∈ ls, k = l.source ∨ k = l.target := by
    intro ls
    induction ls with
    | nil => intro m k hk; exact Or.inl hk
    | cons l ls ih =>
      intro m k hk
      rcases ih (addLink m l) k hk with hk' | ⟨l', hl', hkl'⟩
      · unfold addLink at hk'
        rw [pushVal_keys, pushVal_keys] at hk'
        rcases ensureKey_keys_cases _ _ _ hk' with hk2 | rfl
        · rcases ensureKey_keys_cases _ _ _ hk2 with hk3 | rfl
          · exact Or.inl hk3
          · exact Or.inr ⟨l, List.mem_cons_self _ _, Or.inl rfl⟩
        · exact Or.inr ⟨l, List.mem_cons_self _ _, Or.inr rfl⟩
      · exact Or.inr ⟨l', List.mem_cons_of_mem _ hl', hkl'⟩
  intro k hk
  rcases h links [] k hk with hk' | hex
  · simp at hk'
  · exact hex

/-! ### Root choice -/

theorem chooseRootFold (m : AdjMap) :
    ∀ (rest : List JsNode) (best : String × Nat),
      best.2 ≤ (adj m best.1).length →
      let r := rest.foldl (fun best n =>
        if (adj m n.id).length > best.2 then (n.id, (adj m n.id).length) else best) best
      r.2 ≤ (adj m r.1).length
        ∧ (∀ n ∈ rest, (adj m n.id).length ≤ r.2)
        ∧ best.2 ≤ r.2
        ∧ (r.1 = best.1 ∨ ∃ n ∈ rest, r.1 = n.id) := by
  intro rest
  induction rest with
  | nil =>
    intro best hb
    exact ⟨hb, by simp, Nat.le_refl _, Or.inl rfl⟩
  | cons n rest ih =>
    intro best hb
    simp only [List.foldl_cons]
    by_cases hc : (adj m n.id).length > best.2
    · rw [if_pos hc]
      have ih2 := ih (n.id, (adj m n.id).length) (Nat.le_refl _)
      refine ⟨ih2.1, ?_, ?_, ?_⟩
      · intro x hx
        rcases List.mem_cons.mp hx with rfl | hx'
        · exact ih2.2.2.1
        · exact ih2.2.1 x hx'
      · exact Nat.le_trans (Nat.le_of_lt hc) ih2.2.2.1
      · rcases ih2.2.2.2 with h | ⟨x, hx, hrx⟩
        · exact Or.inr ⟨n, List.mem_cons_self _ _, h⟩
        · exact Or.inr ⟨x, List.mem_cons_of_mem _ hx, hrx⟩
    · rw [if_neg hc]
      have ih2 := ih best hb
      refine ⟨ih2.1, ?_, ih2.2.2.1, ?_⟩
      · intro x hx
        rcases List.mem_cons.mp hx with rfl | hx'
        · exact Nat.le_trans (Nat.le_of_not_lt hc) ih2.2.2.1
        · exact ih2.2.1 x hx'
      · rcases ih2.2.2.2 with h | ⟨x, hx, hrx⟩
        · exact Or.inl h
        · exact Or.inr ⟨x, List.mem_cons_of_mem _ hx, hrx⟩

theorem chooseRoot_spec (nodes : List JsNode) (m : AdjMap) (hne : nodes ≠ []) :
    chooseRoot nodes m ∈ nodes.map (fun n => n.id)
      ∧ ∀ n ∈ nodes, (adj m n.id).length ≤ (adj m (chooseRoot nodes m)).length := by
  have h := chooseRootFold m nodes
    (((nodes.head?).map (fun n => n.id)).getD "", 0) (Nat.zero_le _)
  simp only at h
  constructor
  · rcases h.2.2.2 with hr | ⟨x, hx, hrx⟩
    · cases nodes with
      | nil => exact absurd rfl hne
      | cons n0 rest =>
        unfold chooseRoot
        rw [hr]
        simp
    · unfold chooseRoot
      rw [hrx]
      exact List.mem_map.mpr ⟨x, hx, rfl⟩
  · intro n hn
    exact Nat.le_trans (h.2.1 n hn) h.1

/-! ### BFS invariants -/

/-- The invariant maintained across loop iterations: `visited` mirrors the
keys of `levels` (which are distinct); the root has level 0; queue records
are recorded levels; every recorded level is witnessed by a walk of that
length; every fully processed node has all its neighbors recorded within
+1 of its own level; the queue's levels are nondecreasing and span at most
two consecutive values; and every recorded level is at most one above any
queued level. -/
def BInv (m : AdjMap) (root : String) (st : BfsState) : Prop :=
  st.visited = st.levels.map Prod.fst
    ∧ (st.levels.map Prod.fst).Nodup
    ∧ (root, 0) ∈ st.levels
    ∧ (∀ p ∈ st.queue, p ∈ st.levels)
    ∧ (∀ p ∈ st.levels, WalkLen m root p.1 p.2)
    ∧ (∀ x ∈ st.visited, x ∉ st.queue.map Prod.fst →
        ∀ y ∈ adj m x, ∃ lx ly, st.levels.lookup x = some lx
          ∧ st.levels.lookup y = some ly ∧ ly ≤ lx + 1)
    ∧ (st.queue.map Prod.snd).Sorted (· ≤ ·)
    ∧ (∀ p ∈ st.queue, ∀ q ∈ st.queue, p.2 ≤ q.2 + 1)
    ∧ (∀ e ∈ st.levels, ∀ q ∈ st.queue, e.2 ≤ q.2 + 1)

/-- Progress measure for the loop: unvisited keys plus queue length. -/
def bfsMeasure (m : AdjMap) (st : BfsState) : Nat :=
  ((m.map Prod.fst).toFinset \ st.visited.toFinset).card + st.queue.length

theorem bfsFold_visited_mono (lvl : Nat) :
    ∀ (ns : List String) (st : BfsState),
      st.visited ⊆ (ns.foldl (bfsStep lvl) st).visited := by
  intro ns
  induction ns with
  | nil => intro st; exact fun x hx => hx
  | cons nb ns ih =>
    intro st
    intro x hx
    simp only [List.foldl_cons]
    refine ih (bfsStep lvl st nb) ?_
    unfold bfsStep
    split
    · exact hx
    · exact List.mem_append_left _ hx

theorem bfsFold_char (m : AdjMap) (cur : String) (lvl : Nat)
    (vis0 : List String) (rest : List (String × Nat))
    (lv0 : List (String × Nat)) :
    ∀ (ns : List String), (∀ y ∈ ns, y ∈ adj m cur) →
    ∀ (st : BfsState) (new : List (String × Nat)),
      st.visited = vis0 ++ new.map Prod.fst →
      st.queue = rest ++ new →
      st.levels = lv0 ++ new →
      (∀ q ∈ new, q.2 = lvl + 1 ∧ q.1 ∉ vis0 ∧ q.1 ∈ adj m cur) →
      (new.map Prod.fst).Nodup →
      ∃ new2 : List (String × Nat),
        (ns.foldl (bfsStep lvl) st).visited = vis0 ++ new2.map Prod.fst
        ∧ (ns.foldl (bfsStep lvl) st).queue = rest ++ new2
        ∧ (ns.foldl (bfsStep lvl) st).levels = lv0 ++ new2
        ∧ (∀ q ∈ new2, q.2 = lvl + 1 ∧ q.1 ∉ vis0 ∧ q.1 ∈ adj m cur)
        ∧ (new2.map Prod.fst).Nodup
        ∧ (∀ y ∈ ns, y ∈ (ns.foldl (bfsStep lvl) st).visited) := by
  intro ns
  induction ns with
  | nil =>
    intro _ st new h1 h2 h3 h4 h5
    exact ⟨new, h1, h2, h3, h4, h5, by simp⟩
  | cons nb ns ih =>
    intro hns st new h1 h2 h3 h4 h5
    simp only [List.foldl_cons]
    by_cases hmem : nb ∈ st.visited
    · have hstep : bfsStep lvl st nb = st := by
        unfold bfsStep
        rw [if_pos hmem]
      rw [hstep]
      rcases ih (fun y hy => hns y (List.mem_cons_of_mem _ hy)) st new h1 h2 h3 h4 h5
        with ⟨new2, g1, g2, g3, g4, g5, g6⟩
      refine ⟨new2, g1, g2, g3, g4, g5, ?_⟩
      intro y hy
      rcases List.mem_cons.mp hy with rfl | hy'
      · exact bfsFold_visited_mono lvl ns st hmem
      · exact g6 y hy'
    · have hstep : bfsStep lvl st nb
          = ⟨st.visited ++ [nb], st.queue ++ [(nb, lvl + 1)],
             st.levels ++ [(nb, lvl + 1)]⟩ := by
        unfold bfsStep
        rw [if_neg hmem]
      rw [hstep]
      have hnb_adj : nb ∈ adj m cur := hns nb (List.mem_cons_self _ _)
      have hnb_vis0 : nb ∉ vis0 := fun hc =>
        hmem (h1 ▸ List.mem_append_left _ hc)
      have hnb_new : nb ∉ new.map Prod.fst := fun hc =>
        hmem (h1 ▸ List.mem_append_right _ hc)
      rcases ih (fun y hy => hns y (List.mem_cons_of_mem _ hy))
        ⟨st.visited ++ [nb], st.queue ++ [(nb, lvl + 1)],
         st.levels ++ [(nb, lvl + 1)]⟩ (new ++ [(nb, lvl + 1)])
        (by simp only [h1, List.map_append, List.map_cons, List.map_nil]
            rw [List.append_assoc])
        (by simp only [h2]
            rw [List.append_assoc])
        (by simp only [h3]
            rw [List.append_assoc])
        (by intro q hq
            rcases List.mem_append.mp hq with hq' | hq'
            · exact h4 q hq'
            · simp only [List.mem_singleton] at hq'
              subst hq'
              exact ⟨rfl, hnb_vis0, hnb_adj⟩)
        (by simp only [List.map_append, List.map_cons, List.map_nil]
            rw [List.nodup_append]
            refine ⟨h5, List.nodup_singleton _, ?_⟩
            intro a ha ha2
            simp only [List.mem_singleton] at ha2
            subst ha2
            exact hnb_new ha)
        with ⟨new2, g1, g2, g3, g4, g5, g6⟩
      refine ⟨new2, g1, g2, g3, g4, g5, ?_⟩
      intro y hy
      rcases List.mem_cons.mp hy with rfl | hy'
      · refine bfsFold_visited_mono lvl ns _ ?_
        exact List.mem_append_right _ (by simp)
      · exact g6 y hy'

theorem sorted_of_all_eq {l : List Nat} {c : Nat} (h : ∀ x ∈ l, x = c) :
    l.Sorted (· ≤ ·) := by
  induction l with
  | nil => exact List.sorted_nil
  | cons a l ih =>
    rw [List.sorted_cons]
    refine ⟨?_, ih (fun x hx => h x (List.mem_cons_of_mem _ hx))⟩
    intro b hb
    rw [h a (List.mem_cons_self _ _), h b (List.mem_cons_of_mem _ hb)]

theorem bfs_iteration (m : AdjMap) (root : String) (hclosed : AdjClosed m)
    (st : BfsState) (cur : String) (lvl : Nat) (rest : List (String × Nat))
    (hq : st.queue = (cur, lvl) :: rest) (hinv : BInv m root st) :
    BInv m root (bfsProcess m cur lvl ⟨st.visited, rest, st.levels⟩)
      ∧ bfsMeasure m (bfsProcess m cur lvl ⟨st.visited, rest, st.levels⟩)
        < bfsMeasure m st := by
  obtain ⟨hA, hB, hC, hD, hE, hF, hG, hH, hI⟩ := hinv
  have hcur_lv : (cur, lvl) ∈ st.levels := hD (cur, lvl) (by rw [hq]; simp)
  have hrest_lv : ∀ p ∈ rest, p ∈ st.levels := fun p hp =>
    hD p (by rw [hq]; exact List.mem_cons_of_mem _ hp)
  have hG2 : ((cur, lvl) :: rest).map Prod.snd |>.Sorted (· ≤ ·) := by
    rw [← hq]; exact hG
  simp only [List.map_cons, List.sorted_cons] at hG2
  have hlvl_le : ∀ p ∈ rest, lvl ≤ p.2 := fun p hp =>
    hG2.1 p.2 (List.mem_map.mpr ⟨p, hp, rfl⟩)
  have hH2 : ∀ p ∈ rest, p.2 ≤ lvl + 1 := fun p hp =>
    hH p (by rw [hq]; exact List.mem_cons_of_mem _ hp) (cur, lvl) (by rw [hq]; simp)
  rcases bfsFold_char m cur lvl st.visited rest st.levels (adj m cur)
      (fun y hy => hy) ⟨st.visited, rest, st.levels⟩ []
      (by simp) (by simp) (by simp) (by simp) List.nodup_nil
    with ⟨new, g1, g2, g3, g4, g5, g6⟩
  have hout : bfsProcess m cur lvl ⟨st.visited, rest, st.levels⟩
      = (adj m cur).foldl (bfsStep lvl) ⟨st.visited, rest, st.levels⟩ := rfl
  set out := (adj m cur).foldl (bfsStep lvl) ⟨st.visited, rest, st.levels⟩ with hdef
  rw [hout]
  have hnewfresh : ∀ q ∈ new, q.1 ∉ st.levels.map Prod.fst := by
    intro q hqn hc
    exact (g4 q hqn).2.1 (hA ▸ hc)
  have hnod2 : (out.levels.map Prod.fst).Nodup := by
    rw [g3, List.map_append, List.nodup_append]
    refine ⟨hB, g5, ?_⟩
    intro a ha ha2
    rcases List.mem_map.mp ha2 with ⟨q, hqn, hqa⟩
    exact hnewfresh q hqn (hqa ▸ ha)
  have hvis_eq : out.visited = out.levels.map Prod.fst := by
    rw [g1, g3, List.map_append, ← hA]
  refine ⟨⟨hvis_eq, hnod2, ?_, ?_, ?_, ?_, ?_, ?_, ?_⟩, ?_⟩
  · rw [g3]
    exact List.mem_append_left _ hC
  · intro p hp
    rw [g2] at hp
    rw [g3]
    rcases List.mem_append.mp hp with hp' | hp'
    · exact List.mem_append_left _ (hrest_lv p hp')
    · exact List.mem_append_right _ hp'
  · intro p hp
    rw [g3] at hp
    rcases List.mem_append.mp hp with hp' | hp'
    · exact hE p hp'
    · rcases g4 p hp' with ⟨hp2, _, hpadj⟩
      rw [hp2]
      exact WalkLen.step (hE _ hcur_lv) hpadj
  · intro x hx hxq y hyadj
    rw [g1] at hx
    have hxrest : x ∉ rest.map Prod.fst ∧ x ∉ new.map Prod.fst := by
      constructor <;> intro hc <;> refine hxq ?_ <;> rw [g2, List.map_append]
      · exact List.mem_append_left _ hc
      · exact List.mem_append_right _ hc
    rcases List.mem_append.mp hx with hxv | hxn
    case inr => exact absurd hxn hxrest.2
    by_cases hxcur : x = cur
    · have hlx : out.levels.lookup x = some lvl := by
        rw [hxcur]
        exact lookup_eq_of_mem_nodup hnod2 (g3 ▸ List.mem_append_left _ hcur_lv)
      have hyadj2 : y ∈ adj m cur := hxcur ▸ hyadj
      have hyv : y ∈ out.visited := g6 y hyadj2
      rw [hvis_eq] at hyv
      cases hly : out.levels.lookup y with
      | none => exact absurd hyv (lookup_eq_none_iff.mp hly)
      | some ly =>
        refine ⟨lvl, ly, hlx, rfl, ?_⟩
        have hmem := lookup_mem hly
        rw [g3] at hmem
        rcases List.mem_append.mp hmem with hm' | hm'
        · exact hI (y, ly) hm' (cur, lvl) (by rw [hq]; simp)
        · exact Nat.le_of_eq (g4 (y, ly) hm').1
    · have hxq0 : x ∉ st.queue.map Prod.fst := by
        rw [hq]
        simp only [List.map_cons, List.mem_cons]
        push_neg
        exact ⟨hxcur, hxrest.1⟩
      rcases hF x hxv hxq0 y hyadj with ⟨lx, ly, hlx, hly, hb⟩
      exact ⟨lx, ly, by rw [g3]; exact lookup_append_some hlx,
        by rw [g3]; exact lookup_append_some hly, hb⟩
  · rw [g2, List.map_append]
    unfold List.Sorted at *
    rw [List.pairwise_append]
    refine ⟨hG2.2, sorted_of_all_eq (fun b hb => by
      rcases List.mem_map.mp hb with ⟨q, hqn, hqb⟩
      rw [← hqb, (g4 q hqn).1]), ?_⟩
    intro a ha b hb
    rcases List.mem_map.mp ha with ⟨p, hp, hpa⟩
    rcases List.mem_map.mp hb with ⟨q, hqn, hqb⟩
    rw [← hpa, ← hqb, (g4 q hqn).1]
    exact hH2 p hp
  · intro p hp q hq2
    rw [g2] at hp hq2
    rcases List.mem_append.mp hp with hp' | hp' <;>
      rcases List.mem_append.mp hq2 with hq' | hq'
    · exact hH p (by rw [hq]; exact List.mem_cons_of_mem _ hp')
        q (by rw [hq]; exact List.mem_cons_of_mem _ hq')
    · rw [(g4 q hq').1]
      exact Nat.le_trans (hH2 p hp') (Nat.le_succ _)
    · rw [(g4 p hp').1]
      exact Nat.succ_le_succ (hlvl_le q hq')
    · rw [(g4 p hp').1, (g4 q hq').1]
      exact Nat.le_succ _
  · intro e he q hq2
    rw [g3] at he
    rw [g2] at hq2
    rcases List.mem_append.mp he with he' | he' <;>
      rcases List.mem_append.mp hq2 with hq' | hq'
    · exact hI e he' q (by rw [hq]; exact List.mem_cons_of_mem _ hq')
    · rw [(g4 q hq').1]
      exact Nat.le_trans (hI e he' (cur, lvl) (by rw [hq]; simp)) (Nat.le_succ _)
    · rw [(g4 e he').1]
      exact Nat.succ_le_succ (hlvl_le q hq')
    · rw [(g4 e he').1, (g4 q hq').1]
      exact Nat.le_succ _
  · unfold bfsMeasure
    have hqlen : st.queue.length = rest.length + 1 := by
      rw [hq]
      simp [Nat.add_comm]
    have holen : out.queue.length = rest.length + new.length := by
      rw [g2, List.length_append]
    have hKsub : (new.map Prod.fst).toFinset
        ⊆ (m.map Prod.fst).toFinset \ st.visited.toFinset := by
      intro a ha
      rw [List.mem_toFinset] at ha
      rcases List.mem_map.mp ha with ⟨q, hqn, hqa⟩
      rw [Finset.mem_sdiff, List.mem_toFinset, List.mem_toFinset]
      rcases g4 q hqn with ⟨_, hqv, hqadj⟩
      exact ⟨hqa ▸ adj_mem_keys hclosed cur q.1 hqadj,
        fun hc => hqv (hqa ▸ hc)⟩
    have hcardN : (new.map Prod.fst).toFinset.card = new.length := by
      rw [List.toFinset_card_of_nodup g5, List.length_map]
    have hVout : out.visited.toFinset
        = st.visited.toFinset ∪ (new.map Prod.fst).toFinset := by
      rw [g1, List.toFinset_append]
    have hsd : (m.map Prod.fst).toFinset \ out.visited.toFinset
        = ((m.map Prod.fst).toFinset \ st.visited.toFinset)
            \ (new.map Prod.fst).toFinset := by
      rw [hVout, sdiff_sdiff]
      rfl
    have hcard : ((m.map Prod.fst).toFinset \ out.visited.toFinset).card
        = ((m.map Prod.fst).toFinset \ st.visited.toFinset).card - new.length := by
      rw [hsd, Finset.card_sdiff hKsub, hcardN]
    have hle : new.length
        ≤ ((m.map Prod.fst).toFinset \ st.visited.toFinset).card := by
      rw [← hcardN]
      exact Finset.card_le_card hKsub
    rw [hcard, holen, hqlen]
    omega

theorem bfsLoop_final (m : AdjMap) (root : String) (hclosed : AdjClosed m) :
    ∀ (fuel : Nat) (st : BfsState), BInv m root st → bfsMeasure m st ≤ fuel →
      BInv m root (bfsLoop m fuel st) ∧ (bfsLoop m fuel st).queue = [] := by
  intro fuel
  induction fuel with
  | zero =>
    intro st hinv hm
    have hlen : st.queue.length = 0 := by
      unfold bfsMeasure at hm
      omega
    exact ⟨hinv, List.length_eq_zero.mp hlen⟩
  | succ fuel ih =>
    intro st hinv hm
    obtain ⟨vis, qu, lv⟩ := st
    cases qu with
    | nil => exact ⟨hinv, rfl⟩
    | cons p rest =>
      rcases p with ⟨cur, lvl⟩
      have hstep := bfs_iteration m root hclosed ⟨vis, (cur, lvl) :: rest, lv⟩
        cur lvl rest rfl hinv
      have hm2 : bfsMeasure m (bfsProcess m cur lvl ⟨vis, rest, lv⟩) ≤ fuel := by
        have := hstep.2
        unfold bfsMeasure at hm this ⊢
        simp only [List.length_cons] at hm this
        omega
      exact ih (bfsProcess m cur lvl ⟨vis, rest, lv⟩) hstep.1 hm2

theorem bfsInit_inv (m : AdjMap) (root : String) : BInv m root (bfsInit root) := by
  refine ⟨rfl, by simp [bfsInit], by simp [bfsInit], ?_, ?_, ?_, ?_, ?_, ?_⟩
  · intro p hp
    simpa [bfsInit] using hp
  · intro p hp
    simp only [bfsInit, List.mem_singleton] at hp
    subst hp
    exact WalkLen.refl
  · intro x hx hxq
    simp only [bfsInit, List.mem_singleton] at hx
    simp only [bfsInit, List.map_cons, List.map_nil, List.mem_singleton] at hxq
    exact absurd hx hxq
  · simp only [bfsInit, List.map_cons, List.map_nil]
    exact List.sorted_singleton 0
  · intro p hp q hq
    simp only [bfsInit, List.mem_singleton] at hp hq
    subst hp
    subst hq
    simp
  · intro e he q hq
    simp only [bfsInit, List.mem_singleton] at he hq
    subst he
    subst hq
    simp

theorem bfsMeasure_init_le (m : AdjMap) (root : String) :
    bfsMeasure m (bfsInit root) ≤ m.length + 1 := by
  unfold bfsMeasure bfsInit
  simp only [List.length_singleton]
  have h1 : ((m.map Prod.fst).toFinset \ ([root] : List String).toFinset).card
      ≤ (m.map Prod.fst).toFinset.card :=
    Finset.card_le_card (Finset.sdiff_subset)
  have h2 : (m.map Prod.fst).toFinset.card ≤ (m.map Prod.fst).length :=
    List.toFinset_card_le _
  have h3 : (m.map Prod.fst).length = m.length := List.length_map _ _
  omega

theorem runBfs_spec (m : AdjMap) (root : String) (hclosed : AdjClosed m) :
    BInv m root (runBfs m root) ∧ (runBfs m root).queue = [] :=
  bfsLoop_final m root hclosed (m.length + 1) (bfsInit root)
    (bfsInit_inv m root) (bfsMeasure_init_le m root)

/-- In the drained state, every walk's endpoint is recorded with a level no
larger than the walk's length. -/
theorem final_lookup_le (m : AdjMap) (root : String) (st : BfsState)
    (hinv : BInv m root st) (hqe : st.queue = []) :
    ∀ {x : String} {k : Nat}, WalkLen m root x k →
      ∃ l, st.levels.lookup x = some l ∧ l ≤ k := by
  obtain ⟨hA, hB, hC, _, _, hF, _, _, _⟩ := hinv
  intro x k hw
  induction hw with
  | refl => exact ⟨0, lookup_eq_of_mem_nodup hB hC, Nat.le_refl 0⟩
  | step hw2 hadj ih =>
    rcases ih with ⟨lx, hlx, hle⟩
    next x' y' k' =>
      have hx_keys : x' ∈ st.levels.map Prod.fst :=
        List.mem_map.mpr ⟨(x', lx), lookup_mem hlx, rfl⟩
      have hx_vis : x' ∈ st.visited := by rw [hA]; exact hx_keys
      have hxq : x' ∉ st.queue.map Prod.fst := by rw [hqe]; simp
      rcases hF x' hx_vis hxq y' hadj with ⟨lx', ly, hlx', hly, hb⟩
      have hxx : lx' = lx := by
        rw [hlx] at hlx'
        exact (Option.some.inj hlx').symm
      exact ⟨ly, hly, by omega⟩

/-- In any invariant state, a recorded level is witnessed by a walk. -/
theorem final_lookup_sound (m : AdjMap) (root : String) (st : BfsState)
    (hinv : BInv m root st) {x : String} {l : Nat}
    (h : st.levels.lookup x = some l) : WalkLen m root x l :=
  hinv.2.2.2.2.1 (x, l) (lookup_mem h)

theorem walk_endpoint_cases {m : AdjMap} {root x : String} {k : Nat}
    (hclosed : AdjClosed m) (hw : WalkLen m root x k) :
    x = root ∨ x ∈ m.map Prod.fst := by
  induction hw with
  | refl => exact Or.inl rfl
  | step hw2 hadj ih =>
    next x' y' k' => exact Or.inr (adj_mem_keys hclosed x' y' hadj)

theorem foldl_max_init_le : ∀ (l : List Nat) (a : Nat), a ≤ l.foldl max a := by
  intro l
  induction l with
  | nil => intro a; exact Nat.le_refl a
  | cons v l ih =>
    intro a
    exact Nat.le_trans (Nat.le_max_left a v) (ih (max a v))

theorem foldl_max_le_mem : ∀ (l : List Nat) (a : Nat), ∀ v ∈ l, v ≤ l.foldl max a := by
  intro l
  induction l with
  | nil => intro a v hv; simp at hv
  | cons w l ih =>
    intro a v hv
    rcases List.mem_cons.mp hv with rfl | hv'
    · exact Nat.le_trans (Nat.le_max_right a v) (foldl_max_init_le l (max a v))
    · exact ih (max a w) v hv'

theorem foldl_max_cases : ∀ (l : List Nat) (a : Nat),
    l.foldl max a = a ∨ l.foldl max a ∈ l := by
  intro l
  induction l with
  | nil => intro a; exact Or.inl rfl
  | cons v l ih =>
    intro a
    rcases ih (max a v) with h | h
    · rcases Nat.le_total a v with hav | hav
      · rw [List.foldl_cons, h, Nat.max_eq_right hav]
        exact Or.inr (List.mem_cons_self _ _)
      · rw [List.foldl_cons, h, Nat.max_eq_left hav]
        exact Or.inl rfl
    · exact Or.inr (List.mem_cons_of_mem _ (by rw [List.foldl_cons]; exact h))

theorem levels_characterize (m : AdjMap) (root : String) (hclosed : AdjClosed m) :
    (∀ x, Reaches m root x →
        ∃ l, (runBfs m root).levels.lookup x = some l
          ∧ WalkLen m root x l ∧ ∀ k, WalkLen m root x k → l ≤ k)
      ∧ (∀ x, ¬ Reaches m root x → (runBfs m root).levels.lookup x = none)
      ∧ (∀ e ∈ (runBfs m root).levels, WalkLen m root e.1 e.2)
      ∧ (root, 0) ∈ (runBfs m root).levels
      ∧ ((runBfs m root).levels.map Prod.fst).Nodup := by
  obtain ⟨hinv, hqe⟩ := runBfs_spec m root hclosed
  have hsound : ∀ e ∈ (runBfs m root).levels, WalkLen m root e.1 e.2 :=
    hinv.2.2.2.2.1
  refine ⟨?_, ?_, hsound, hinv.2.2.1, hinv.2.1⟩
  · intro x ⟨k0, w0⟩
    rcases final_lookup_le m root (runBfs m root) hinv hqe w0 with ⟨l, hl, _⟩
    refine ⟨l, hl, final_lookup_sound m root (runBfs m root) hinv hl, ?_⟩
    intro k wk
    rcases final_lookup_le m root (runBfs m root) hinv hqe wk with ⟨l', hl', hle'⟩
    rw [hl] at hl'
    exact (Option.some.inj hl') ▸ hle'
  · intro x hnr
    cases hl : (runBfs m root).levels.lookup x with
    | none => rfl
    | some l =>
      exact absurd ⟨l, final_lookup_sound m root (runBfs m root) hinv hl⟩ hnr

theorem nodeLevel_of_lookup_some {nodes : List JsNode} {links : List Link}
    {x : String} {l : Nat}
    (h : (runBfs (linkMapBuild links)
        (chooseRoot nodes (linkMapBuild links))).levels.lookup x = some l) :
    nodeLevel nodes links x = l := by
  unfold nodeLevel
  rw [h]

theorem nodeLevel_of_lookup_none {nodes : List JsNode} {links : List Link}
    {x : String}
    (h : (runBfs (linkMapBuild links)
        (chooseRoot nodes (linkMapBuild links))).levels.lookup x = none) :
    nodeLevel nodes links x
      = maxLevelOf (runBfs (linkMapBuild links)
          (chooseRoot nodes (linkMapBuild links))).levels + 1 := by
  unfold nodeLevel
  rw [h]

/-- C9: in `calculateBloodwebLayout`, provided the links connect existing
nodes, the chosen root is a node with the maximum number of adjacency
entries and gets level 0; every node reachable from the root (ignoring
edge direction) is assigned exactly its undirected BFS hop distance (a
walk of that length exists and no shorter walk does); and every
unreachable node is assigned the maximum reachable level plus one. -/
theorem bloodweb_levels_correct (nodes : List JsNode) (links : List Link)
    (hne : nodes ≠ [])
    (hwf : ∀ l ∈ links, l.source ∈ nodes.map (fun n => n.id)
      ∧ l.target ∈ nodes.map (fun n => n.id)) :
    (chooseRoot nodes (linkMapBuild links) ∈ nodes.map (fun n => n.id)
      ∧ (∀ n ∈ nodes,
          (adj (linkMapBuild links) n.id).length
            ≤ (adj (linkMapBuild links)
                (chooseRoot nodes (linkMapBuild links))).length)
      ∧ nodeLevel nodes links (chooseRoot nodes (linkMapBuild links)) = 0)
    ∧ (∀ x ∈ nodes.map (fun n => n.id),
        Reaches (linkMapBuild links) (chooseRoot nodes (linkMapBuild links)) x →
          WalkLen (linkMapBuild links) (chooseRoot nodes (linkMapBuild links)) x
              (nodeLevel nodes links x)
            ∧ ∀ k, WalkLen (linkMapBuild links)
                (chooseRoot nodes (linkMapBuild links)) x k →
                nodeLevel nodes links x ≤ k)
    ∧ (∀ x ∈ nodes.map (fun n => n.id),
        ¬ Reaches (linkMapBuild links) (chooseRoot nodes (linkMapBuild links)) x →
          ∃ M, nodeLevel nodes links x = M + 1
            ∧ (∃ y ∈ nodes.map (fun n => n.id),
                Reaches (linkMapBuild links) (chooseRoot nodes (linkMapBuild links)) y
                  ∧ nodeLevel nodes links y = M)
            ∧ ∀ y ∈ nodes.map (fun n => n.id),
                Reaches (linkMapBuild links)
                    (chooseRoot nodes (linkMapBuild links)) y →
                  nodeLevel nodes links y ≤ M) := by
  have hclosed := linkMap_closed links
  have hroot := chooseRoot_spec nodes (linkMapBuild links) hne
  obtain ⟨hreach, hunreach, hsound, hrootmem, hnodup⟩ :=
    levels_characterize (linkMapBuild links)
      (chooseRoot nodes (linkMapBuild links)) hclosed
  have hkeys_ids : ∀ y k, WalkLen (linkMapBuild links)
      (chooseRoot nodes (linkMapBuild links)) y k →
      y ∈ nodes.map (fun n => n.id) := by
    intro y k hw
    rcases walk_endpoint_cases hclosed hw with rfl | hy
    · exact hroot.1
    · rcases linkMap_keys_endpoints links y hy with ⟨l, hl, hyl⟩
      rcases hyl with rfl | rfl
      · exact (hwf l hl).1
      · exact (hwf l hl).2
  refine ⟨⟨hroot.1, hroot.2, ?_⟩, ?_, ?_⟩
  · rcases hreach (chooseRoot nodes (linkMapBuild links)) ⟨0, WalkLen.refl⟩
      with ⟨l, hl, _, hmin⟩
    have : l = 0 := Nat.le_zero.mp (hmin 0 WalkLen.refl)
    rw [nodeLevel_of_lookup_some hl, this]
  · intro x _ hr
    rcases hreach x hr with ⟨l, hl, hw, hmin⟩
    rw [nodeLevel_of_lookup_some hl]
    exact ⟨hw, hmin⟩
  · intro x _ hnr
    have hnone := hunreach x hnr
    refine ⟨maxLevelOf (runBfs (linkMapBuild links)
      (chooseRoot nodes (linkMapBuild links))).levels,
      nodeLevel_of_lookup_none hnone, ?_, ?_⟩
    · have hatt : ∃ e ∈ (runBfs (linkMapBuild links)
          (chooseRoot nodes (linkMapBuild links))).levels,
          e.2 = maxLevelOf (runBfs (linkMapBuild links)
            (chooseRoot nodes (linkMapBuild links))).levels := by
        unfold maxLevelOf
        rcases foldl_max_cases ((runBfs (linkMapBuild links)
            (chooseRoot nodes (linkMapBuild links))).levels.map Prod.snd) 0
          with h0 | hmem
        · exact ⟨(chooseRoot nodes (linkMapBuild links), 0), hrootmem, h0.symm⟩
        · rcases List.mem_map.mp hmem with ⟨e, he, hev⟩
          exact ⟨e, he, hev⟩
      rcases hatt with ⟨e, he, hev⟩
      have hwalk := hsound e he
      refine ⟨e.1, hkeys_ids e.1 e.2 hwalk, ⟨e.2, hwalk⟩, ?_⟩
      have hl : (runBfs (linkMapBuild links)
          (chooseRoot nodes (linkMapBuild links))).levels.lookup e.1 = some e.2 :=
        lookup_eq_of_mem_nodup hnodup (by rcases e with ⟨y, v⟩; exact he)
      rw [nodeLevel_of_lookup_some hl, hev]
    · intro y _ hry
      rcases hreach y hry with ⟨ly, hly, _, _⟩
      rw [nodeLevel_of_lookup_some hly]
      unfold maxLevelOf
      exact foldl_max_le_mem _ 0 ly
        (List.mem_map.mpr ⟨(y, ly), lookup_mem hly, rfl⟩)

/-- Witness for C9 at a concrete input. -/
theorem bloodweb_levels_correct_witness :
    ([(⟨"A", "", []⟩ : JsNode), ⟨"B", "", []⟩] ≠ [])
      ∧ (∀ l ∈ [(⟨"A", "B"⟩ : Link)],
          l.source ∈ [(⟨"A", "", []⟩ : JsNode), ⟨"B", "", []⟩].map (fun n => n.id)
            ∧ l.target ∈ [(⟨"A", "", []⟩ : JsNode), ⟨"B", "", []⟩].map (fun n => n.id))
      ∧ nodeLevel [(⟨"A", "", []⟩ : JsNode), ⟨"B", "", []⟩] [⟨"A", "B"⟩]
          (chooseRoot [(⟨"A", "", []⟩ : JsNode), ⟨"B", "", []⟩]
            (linkMapBuild [⟨"A", "B"⟩])) = 0 :=
  ⟨by decide, by decide,
    (bloodweb_levels_correct [⟨"A", "", []⟩, ⟨"B", "", []⟩] [⟨"A", "B"⟩]
      (by decide) (by decide)).1.2.2⟩

end WolfTrace
